import Mathlib

/-!
Verification of the task scheduler in `src/engine/source/runtime/system/task.h`
(struct `runtime::TaskSystem`).

The header declares the data model (`TaskSystem::Task` with
`std::atomic<uint32_t> jobs`, a parent handle, `std::function<void()> closure`,
`std::string name`) and contains the inline template bodies of `create`,
`create_as_child` and `create_parallel_for`.  The bodies of `create_internal`,
`create_as_child_internal`, `run`, `finish`, `wait` and `is_completed` live in a
`task.cpp` that is not part of the excerpt; those operations are modelled from the
spec (sections 4.1, 4.4, 4.5), as marked in their doc comments.

Handles are modelled as indices into the arena list (the arena never relocates or
frees live entries during the scenarios considered, so index identity suffices).
The `uint32_t` counter is modelled as a `Nat` kept below `2^32`, with increment and
decrement performed modulo `2^32` exactly as the machine type does.
-/

namespace TaskSys

/-- Modulus of the 32-bit unsigned counter `std::atomic<uint32_t> jobs` (task.h line 147). -/
def u32Mod : Nat := 4294967296

/-- `fetch_add(1)` on a `uint32_t`: wraps modulo `2^32`. -/
def inc32 (j : Nat) : Nat := (j + 1) % u32Mod

/-- `fetch_sub(1)` / `--jobs` on a `uint32_t`: wraps modulo `2^32`;
decrementing 0 yields `4294967295`. -/
def dec32 (j : Nat) : Nat := (j + 4294967295) % u32Mod

/-- Embedding of `TaskSystem::Task` (task.h lines 136-150).
`hasClosure` records whether `closure != nullptr`; `slice` records the half-open
range bound into the closure by `create_parallel_for` (`std::bind(functor, it, it + step)`),
`none` for any other closure.  `executed` is a ghost flag recording that the task's
closure (or the no-op for an absent closure) has been run by a dequeuing thread. -/
structure Task where
  hasClosure : Bool
  slice : Option (Nat × Nat)
  jobs : Nat
  parent : Option Nat
  name : String
  executed : Bool
deriving DecidableEq

/-- The scheduler state: the task arena `_tasks` plus the two handle queues
`_main_thread_tasks.tasks` and `_other_thread_tasks.tasks` (task.h lines 223-251). -/
structure SchedState where
  tasks : List Task
  mainTasks : List Nat
  otherTasks : List Nat
deriving DecidableEq

def initState : SchedState := ⟨[], [], []⟩

/-- Value of the `jobs` counter of the task at handle `h` (0 for a stale handle). -/
def jobsAt (ts : List Task) (h : Nat) : Nat := ((ts[h]?).map Task.jobs).getD 0

/-- Parent link of the task at handle `h`. -/
def parentAt (ts : List Task) (h : Nat) : Option Nat :=
  ((ts[h]?).map Task.parent).getD none

/-- Ghost flag: has the task at `h` been executed. -/
def executedAt (ts : List Task) (h : Nat) : Bool :=
  ((ts[h]?).map Task.executed).getD true

/-- `closure != nullptr` for the task at `h`. -/
def hasClosureAt (ts : List Task) (h : Nat) : Bool :=
  ((ts[h]?).map Task.hasClosure).getD false

/-- One cascading finish pass, fuelled so that it is structurally recursive
(a parent handle is always allocated before its children, so `h + 1` units of
fuel always suffice; see `finish`). -/
def finishT : Nat → List Task → Nat → List Task
  | 0, ts, _ => ts
  | fuel+1, ts, h =>
    match ts[h]? with
    | none => ts
    | some t =>
      let j := dec32 t.jobs
      let ts' := ts.set h { t with jobs := j }
      if j = 0 then
        match t.parent with
        | some p => if p < h then finishT fuel ts' p else ts'
        | none => ts'
      else ts'

/-- Modelled from the spec: the body of `TaskSystem::finish` is in the absent
`task.cpp`.  Spec section 4.4, finish step: atomically decrement the task's own
`pending` by 1; if the post-decrement value is exactly 0 and the task has a
parent, recursively perform the finish step on the parent; otherwise stop.
The `p < h` fuel guard reflects that a parent is always allocated before its
children, so the recursion descends to strictly smaller handles. -/
def finish (s : SchedState) (h : Nat) : SchedState :=
  { s with tasks := finishT (h + 1) s.tasks h }

/-- Modelled from the spec: the body of `TaskSystem::create_internal` is in the
absent `task.cpp`.  Spec section 4.1 `allocate`: reserve a new slot, initialize
`pending = 1`, `parent = none`, return the handle; no queue is touched. -/
def create_internal (s : SchedState) (name : String) (hasClosure : Bool)
    (slice : Option (Nat × Nat)) : SchedState × Nat :=
  ({ s with tasks := s.tasks ++ [⟨hasClosure, slice, 1, none, name, false⟩] },
   s.tasks.length)

/-- Modelled from the spec: the body of `TaskSystem::create_as_child_internal` is
in the absent `task.cpp`.  Spec sections 4.4 and 4.5: allocate a new task
(`pending = 1`), set its parent link, and atomically increment the parent's
`pending` by 1, all before the handle becomes observable for scheduling (no queue
is touched).  A stale parent handle degenerates to a plain create. -/
def create_as_child_internal (s : SchedState) (p : Nat) (name : String)
    (hasClosure : Bool) (slice : Option (Nat × Nat)) : SchedState × Nat :=
  match s.tasks[p]? with
  | some tp =>
    ({ s with tasks := (s.tasks.set p { tp with jobs := inc32 tp.jobs }) ++
        [⟨hasClosure, slice, 1, some p, name, false⟩] },
     s.tasks.length)
  | none => create_internal s name hasClosure slice

/-- `TaskSystem::create(name)` (task.h lines 255-258): `create_internal(name, nullptr)`. -/
def create (s : SchedState) (name : String) : SchedState × Nat :=
  create_internal s name false none

/-- `TaskSystem::create(name, functor, args...)` (task.h lines 260-265):
bind the arguments and call `create_internal`. -/
def createWithClosure (s : SchedState) (name : String) : SchedState × Nat :=
  create_internal s name true none

/-- `TaskSystem::create_as_child` (task.h lines 267-272): bind the arguments and
call `create_as_child_internal`. -/
def create_as_child (s : SchedState) (p : Nat) (name : String) :
    SchedState × Nat :=
  create_as_child_internal s p name true none

/-- Modelled from the spec: the body of `TaskSystem::run` is in the absent
`task.cpp`.  Spec section 4.5: enqueue the handle onto `main_queue` or
`worker_queue` according to `on_main_thread`. -/
def run (s : SchedState) (h : Nat) (onMain : Bool) : SchedState :=
  if onMain then { s with mainTasks := s.mainTasks ++ [h] }
  else { s with otherTasks := s.otherTasks ++ [h] }

/-- Modelled from the spec: the body of `TaskSystem::is_completed` is in the
absent `task.cpp`.  Spec section 4.5: non-blocking read of `pending(handle) == 0`. -/
def is_completed (s : SchedState) (h : Nat) : Bool := jobsAt s.tasks h == 0

/-- Mark the ghost `executed` flag of the task at `h`. -/
def setExecuted (ts : List Task) (h : Nat) : List Task :=
  match ts[h]? with
  | some t => ts.set h { t with executed := true }
  | none => ts

/-- Executing a dequeued task (core of `execute_one`, whose body is in the absent
`task.cpp`; modelled from the spec, section 4.3): invoke the closure (a no-op when
absent), then perform the finish/propagation step. -/
def execTask (s : SchedState) (h : Nat) : SchedState :=
  finish { s with tasks := setExecuted s.tasks h } h

/-- Modelled from the spec: the body of `TaskSystem::wait` is in the absent
`task.cpp`.  Spec section 4.5: block the calling thread until
`pending(handle) == 0`.  The busy-wait loop is given explicit fuel; `true` means
the call returned within that many loop iterations (the state is frozen, so this
captures exactly the return condition of the loop). -/
def wait_go (s : SchedState) (h : Nat) : Nat → Bool
  | 0 => false
  | n+1 => if is_completed s h then true else wait_go s h n

/-- The iterator sequence of the `create_parallel_for` loop
`for (auto it = begin; it < end; it += step)` (task.h line 278):
`pforIter b step n` is the value of `it` after `n` increments. -/
def pforIter (b step : Nat) : Nat → Nat
  | 0 => b
  | n+1 => pforIter b step n + step

/-- Fuelled slice enumeration of the `create_parallel_for` loop: one
`(it, it + step)` pair per iteration of `for (auto it = begin; it < end; it += step)`. -/
def pforSlicesFuel : Nat → Nat → Nat → Nat → List (Nat × Nat)
  | 0, _, _, _ => []
  | fuel+1, it, e, step =>
    if it < e then (it, it + step) :: pforSlicesFuel fuel (it + step) e step
    else []

/-- The slices `[it, it + step)` produced by the `create_parallel_for` loop
(task.h lines 277-280).  `e - b` units of fuel suffice whenever `step > 0`
(each iteration advances `it` by at least 1); for `step = 0` the source loop
does not terminate, which is treated separately via `pforIter`. -/
def pforSlices (b e step : Nat) : List (Nat × Nat) :=
  pforSlicesFuel (e - b) b e step

/-- Is a point covered by one of the slices. -/
def coveredSl (sls : List (Nat × Nat)) (x : Nat) : Bool :=
  sls.any (fun sl => decide (sl.1 ≤ x) && decide (x < sl.2))

/-- Fuelled body of the `create_parallel_for` loop (task.h lines 278-279):
each iteration creates a child of `master` with the closure bound to
`(it, it + step)` and immediately enqueues it onto the worker queue via `run`. -/
def pforBody : Nat → SchedState → Nat → String → Nat → Nat → Nat → SchedState
  | 0, s, _, _, _, _, _ => s
  | fuel+1, s, master, name, it, e, step =>
    if it < e then
      let sc := create_as_child_internal s master name true (some (it, it + step))
      pforBody fuel (run sc.1 sc.2 false) master name (it + step) e step
    else s

/-- `TaskSystem::create_parallel_for` (task.h lines 274-281): create a
closure-less master task, then one child per `[it, it + step)` slice, each run
immediately.  As with `pforSlices`, `e - b` units of fuel model the loop
faithfully whenever `step > 0`. -/
def create_parallel_for (s : SchedState) (name : String) (b e step : Nat) :
    SchedState × Nat :=
  let sm := create_internal s name false none
  (pforBody (e - b) sm.1 sm.2 name b e step, sm.2)

/-! ## The protocol as a labelled transition system

Events are the scheduler API calls that mutate counters or queues, plus the
execution of a dequeued task by a worker or by the main thread.  The
preconditions record the usage contract stated by the spec: a stale handle is
never passed (section 4.5), a task executes exactly once (section 3, Lifecycle),
and a child is attached while its parent is still pending (section 4.4: the
increment must happen-before the parent can be observed complete). -/

inductive Ev where
  | createT (name : String) (hasClosure : Bool) (slice : Option (Nat × Nat))
  | createChildT (p : Nat) (name : String) (hasClosure : Bool) (slice : Option (Nat × Nat))
  | runT (h : Nat) (onMain : Bool)
  | execT (h : Nat) (onMain : Bool)
deriving DecidableEq

/-- One labelled step of the scheduler. -/
inductive LStep : SchedState → Ev → SchedState → Prop where
  | createS : ∀ s name hc sl,
      LStep s (.createT name hc sl) (create_internal s name hc sl).1
  | createChildS : ∀ s p name hc sl,
      p < s.tasks.length →
      jobsAt s.tasks p ≠ 0 →
      LStep s (.createChildT p name hc sl) (create_as_child_internal s p name hc sl).1
  | runS : ∀ s h onMain,
      h < s.tasks.length →
      LStep s (.runT h onMain) (run s h onMain)
  | execWorkerS : ∀ s h rest,
      s.otherTasks = h :: rest →
      h < s.tasks.length →
      executedAt s.tasks h = false →
      LStep s (.execT h false) (execTask { s with otherTasks := rest } h)
  | execMainS : ∀ s h rest,
      s.mainTasks = h :: rest →
      h < s.tasks.length →
      executedAt s.tasks h = false →
      LStep s (.execT h true) (execTask { s with mainTasks := rest } h)

/-- States reachable from the freshly initialized scheduler. -/
inductive Reachable : SchedState → Prop where
  | init : Reachable initState
  | step : ∀ s e s', Reachable s → LStep s e s' → Reachable s'

/-- A finite run of the scheduler with its event list. -/
inductive Trace : SchedState → List Ev → SchedState → Prop where
  | nil : ∀ s, Trace s [] s
  | cons : ∀ s e s' evs s'', LStep s e s' → Trace s' evs s'' → Trace s (e :: evs) s''

/-- Does the event create a child of `m` or execute `m` (the only ways a step can
change the counter of a task `m` that has no children). -/
def touchesHandle (m : Nat) : Ev → Bool
  | .createChildT p _ _ _ => p == m
  | .execT h _ => h == m
  | _ => false

/-! ## The counter invariant -/

/-- The contribution of the task's own not-yet-executed closure to its counter. -/
def selfUnits (t : Task) : Nat := if t.executed then 0 else 1

/-- Number of children of `h` whose own counter has not yet reached 0. -/
def unf (ts : List Task) (h : Nat) : Nat :=
  ts.countP (fun t => decide (t.parent = some h ∧ t.jobs ≠ 0))

/-- The completion-tracker invariant: every live task's counter equals its own
outstanding unit plus the number of its not-yet-finished children; parent links
point to earlier slots; counters are bounded by the arena size. -/
def Inv (ts : List Task) : Prop :=
  ∀ h t, ts[h]? = some t →
    t.jobs = selfUnits t + unf ts h
    ∧ (∀ p, t.parent = some p → p < h)
    ∧ t.jobs ≤ ts.length

/-! ## List helper lemmas -/

theorem countP_set_add (l : List Task) (i : Nat) (a : Task) (p : Task → Bool)
    (t : Task) (h : l[i]? = some t) :
    (l.set i a).countP p + (if p t then 1 else 0) =
      l.countP p + (if p a then 1 else 0) := by
  induction l generalizing i with
  | nil => simp at h
  | cons x xs ih =>
    cases i with
    | zero =>
      simp only [List.getElem?_cons_zero, Option.some.injEq] at h
      subst h
      simp [List.countP_cons]
      omega
    | succ n =>
      simp only [List.getElem?_cons_succ] at h
      simp only [List.set, List.countP_cons]
      have := ih n h
      omega

theorem getElem?_eq_some_lt {ts : List Task} {h : Nat} {t : Task}
    (hh : ts[h]? = some t) : h < ts.length := by
  by_contra hc
  rw [List.getElem?_eq_none (Nat.le_of_not_lt hc)] at hh
  exact Option.noConfusion hh

theorem jobsAt_eq {ts : List Task} {h : Nat} {t : Task}
    (hh : ts[h]? = some t) : jobsAt ts h = t.jobs := by
  simp [jobsAt, hh]

theorem executedAt_eq {ts : List Task} {h : Nat} {t : Task}
    (hh : ts[h]? = some t) : executedAt ts h = t.executed := by
  simp [executedAt, hh]

theorem parentAt_eq {ts : List Task} {h : Nat} {t : Task}
    (hh : ts[h]? = some t) : parentAt ts h = t.parent := by
  simp [parentAt, hh]

theorem hasClosureAt_eq {ts : List Task} {h : Nat} {t : Task}
    (hh : ts[h]? = some t) : hasClosureAt ts h = t.hasClosure := by
  simp [hasClosureAt, hh]

/-! ## Arithmetic of the 32-bit counter -/

theorem dec32_eq_sub {j : Nat} (h1 : 1 ≤ j) (h2 : j < u32Mod) : dec32 j = j - 1 := by
  have h2' : j < 4294967296 := h2
  have : j + 4294967295 = (j - 1) + 4294967296 := by omega
  rw [dec32, this, u32Mod, Nat.add_mod_right]
  exact Nat.mod_eq_of_lt (by omega)

theorem inc32_eq_add {j : Nat} (h : j + 1 < u32Mod) : inc32 j = j + 1 := by
  rw [inc32]
  exact Nat.mod_eq_of_lt h

theorem dec32_zero : dec32 0 = 4294967295 := by decide

/-! ## Basic facts about `finishT` -/

theorem finishT_length : ∀ (fuel : Nat) (ts : List Task) (h : Nat),
    (finishT fuel ts h).length = ts.length := by
  intro fuel
  induction fuel with
  | zero => intro ts h; rfl
  | succ n ih =>
    intro ts h
    simp only [finishT]
    cases hm : ts[h]? with
    | none => rfl
    | some t =>
      simp only
      by_cases hj : dec32 t.jobs = 0
      · simp only [hj, if_pos rfl]
        cases hp : t.parent with
        | none => simp [List.length_set]
        | some p =>
          by_cases hph : p < h
          · simp only [hph, if_pos]
            rw [ih, List.length_set]
          · simp [hph, List.length_set]
      · simp [hj, List.length_set]

theorem finishT_irrel : ∀ (h : Nat) (f1 f2 : Nat) (ts : List Task),
    h < f1 → h < f2 → finishT f1 ts h = finishT f2 ts h := by
  intro h
  induction h using Nat.strong_induction_on with
  | _ h ih =>
    intro f1 f2 ts h1 h2
    obtain ⟨a, rfl⟩ : ∃ a, f1 = a + 1 := ⟨f1 - 1, by omega⟩
    obtain ⟨b, rfl⟩ : ∃ b, f2 = b + 1 := ⟨f2 - 1, by omega⟩
    simp only [finishT]
    cases hm : ts[h]? with
    | none => rfl
    | some t =>
      simp only
      by_cases hj : dec32 t.jobs = 0
      · simp only [hj, if_pos rfl]
        cases hp : t.parent with
        | none => rfl
        | some p =>
          by_cases hph : p < h
          · simp only [hph, if_pos]
            exact ih p hph a b _ (by omega) (by omega)
          · simp [hph]
      · simp [hj]

/-- One-step unfolding of `finishT` at a live handle. -/
theorem finishT_succ (fuel : Nat) (ts : List Task) (h : Nat) (t : Task)
    (hh : ts[h]? = some t) :
    finishT (fuel+1) ts h =
      if dec32 t.jobs = 0 then
        match t.parent with
        | some p => if p < h then finishT fuel (ts.set h { t with jobs := dec32 t.jobs }) p
                    else ts.set h { t with jobs := dec32 t.jobs }
        | none => ts.set h { t with jobs := dec32 t.jobs }
      else ts.set h { t with jobs := dec32 t.jobs } := by
  simp only [finishT, hh]

/-! ## Bookkeeping for `unf` -/

theorem unf_set (ts : List Task) (h : Nat) (t newt : Task) (g : Nat)
    (hh : ts[h]? = some t) :
    unf (ts.set h newt) g + (if t.parent = some g ∧ t.jobs ≠ 0 then 1 else 0) =
      unf ts g + (if newt.parent = some g ∧ newt.jobs ≠ 0 then 1 else 0) := by
  have hc := countP_set_add ts h newt
    (fun tt => decide (tt.parent = some g ∧ tt.jobs ≠ 0)) t hh
  simpa [unf] using hc

theorem unf_append (ts : List Task) (t0 : Task) (g : Nat) :
    unf (ts ++ [t0]) g =
      unf ts g + (if t0.parent = some g ∧ t0.jobs ≠ 0 then 1 else 0) := by
  simp [unf, List.countP_append, List.countP_cons]

theorem unf_eq_zero_of_no_parent (ts : List Task) (g : Nat)
    (hnp : ∀ (i : Nat) (tg : Task), ts[i]? = some tg → tg.parent ≠ some g) :
    unf ts g = 0 := by
  rw [unf, List.countP_eq_zero]
  intro a ha
  obtain ⟨i, hi, hieq⟩ := List.mem_iff_getElem.mp ha
  have : ts[i]? = some a := by rw [List.getElem?_eq_getElem hi, hieq]
  simp [hnp i a this]

/-- The heart of the completion protocol: if every task satisfies the counter
equation except `h`, whose counter is one unit high (one unit of its work has
just completed but has not yet been subtracted), then the cascading finish step
starting at `h` restores the invariant everywhere. -/
theorem finishT_restores :
    ∀ (h : Nat) (ts : List Task) (t : Task),
      ts[h]? = some t →
      t.jobs = selfUnits t + unf ts h + 1 →
      (∀ (g : Nat) (tg : Task), ts[g]? = some tg → g ≠ h →
        tg.jobs = selfUnits tg + unf ts g) →
      (∀ (g : Nat) (tg : Task), ts[g]? = some tg →
        (∀ p, tg.parent = some p → p < g) ∧ tg.jobs ≤ ts.length) →
      ts.length < u32Mod →
      Inv (finishT (h + 1) ts h) := by
  intro h
  induction h using Nat.strong_induction_on with
  | _ h ih =>
    intro ts t hh hjobs hother hpb hlen
    have hlt : h < ts.length := getElem?_eq_some_lt hh
    have hjpos : 1 ≤ t.jobs := by omega
    have hjne : t.jobs ≠ 0 := by omega
    have hjbnd : t.jobs ≤ ts.length := (hpb h t hh).2
    have hdec : dec32 t.jobs = t.jobs - 1 :=
      dec32_eq_sub hjpos (lt_of_le_of_lt hjbnd hlen)
    have hparlt : ∀ p, t.parent = some p → p < h := (hpb h t hh).1
    have hpnh : t.parent ≠ some h := fun e => absurd (hparlt h e) (lt_irrefl h)
    rw [finishT_succ h ts h t hh]
    set newt : Task := { t with jobs := dec32 t.jobs } with hnewt
    set ts1 : List Task := ts.set h newt with hts1
    have hnj : newt.jobs = dec32 t.jobs := rfl
    have hnp : newt.parent = t.parent := rfl
    have hne : newt.executed = t.executed := rfl
    have hns : selfUnits newt = selfUnits t := by simp only [selfUnits, hne]
    have hts1h : ts1[h]? = some newt := List.getElem?_set_self hlt
    have hts1g : ∀ g, g ≠ h → ts1[g]? = ts[g]? :=
      fun g hg => List.getElem?_set_ne (Ne.symm hg)
    have hlen1 : ts1.length = ts.length := List.length_set ts h newt
    have hunf : ∀ g, unf ts1 g + (if t.parent = some g ∧ t.jobs ≠ 0 then 1 else 0)
        = unf ts g + (if t.parent = some g ∧ dec32 t.jobs ≠ 0 then 1 else 0) := by
      intro g
      have hu := unf_set ts h t newt g hh
      rw [hnp, hnj] at hu
      exact hu
    have hunf0 : ∀ g, t.parent ≠ some g → unf ts1 g = unf ts g := by
      intro g hg
      have hu := hunf g
      simp [hg] at hu
      exact hu
    by_cases hj0 : dec32 t.jobs = 0
    · have hj1 : t.jobs = 1 := by omega
      have hself0 : selfUnits t = 0 := by omega
      have hunfh0 : unf ts h = 0 := by omega
      rw [if_pos hj0]
      cases hp : t.parent with
      | none =>
        show Inv ts1
        intro g tg hg
        by_cases hgh : g = h
        · subst hgh
          have htg : tg = newt := Option.some.inj (hg.symm.trans hts1h)
          subst htg
          have hun : unf ts1 g = unf ts g := hunf0 g (by rw [hp]; exact fun e => Option.noConfusion e)
          refine ⟨by omega, ?_, ?_⟩
          · intro p hpe
            rw [hnp] at hpe
            exact hparlt p hpe
          · omega
        · have hg' : ts[g]? = some tg := (hts1g g hgh).symm.trans hg
          have heq := hother g tg hg' hgh
          have hun : unf ts1 g = unf ts g := hunf0 g (by rw [hp]; exact fun e => Option.noConfusion e)
          exact ⟨by omega, (hpb g tg hg').1, by rw [hlen1]; exact (hpb g tg hg').2⟩
      | some q =>
        have hqh : q < h := hparlt q hp
        show Inv (if q < h then finishT h ts1 q else ts1)
        rw [if_pos hqh]
        rw [finishT_irrel q h (q+1) ts1 hqh (Nat.lt_succ_self q)]
        have hqlt : q < ts.length := by omega
        obtain ⟨tq, hqget⟩ : ∃ tq, ts[q]? = some tq :=
          ⟨ts.get ⟨q, hqlt⟩, by rw [List.getElem?_eq_getElem hqlt]; rfl⟩
        have hqnh : q ≠ h := by omega
        have hts1q : ts1[q]? = some tq := (hts1g q hqnh).trans hqget
        have hunfq : unf ts1 q + 1 = unf ts q := by
          have hu := hunf q
          simp [hp, hjne, hj0] at hu
          omega
        apply ih q hqh ts1 tq hts1q
        · have := hother q tq hqget hqnh
          omega
        · intro g tg hg hgq
          by_cases hgh : g = h
          · subst hgh
            have htg : tg = newt := Option.some.inj (hg.symm.trans hts1h)
            subst htg
            have hun : unf ts1 g = unf ts g := by
              apply hunf0 g
              rw [hp]
              intro e
              exact hgq (Option.some.inj e).symm
            omega
          · have hg' : ts[g]? = some tg := (hts1g g hgh).symm.trans hg
            have heq := hother g tg hg' hgh
            have hun : unf ts1 g = unf ts g := by
              apply hunf0 g
              rw [hp]
              intro e
              exact hgq (Option.some.inj e).symm
            omega
        · intro g tg hg
          by_cases hgh : g = h
          · subst hgh
            have htg : tg = newt := Option.some.inj (hg.symm.trans hts1h)
            subst htg
            refine ⟨?_, by omega⟩
            intro p hpe
            rw [hnp] at hpe
            exact hparlt p hpe
          · have hg' : ts[g]? = some tg := (hts1g g hgh).symm.trans hg
            exact ⟨(hpb g tg hg').1, by rw [hlen1]; exact (hpb g tg hg').2⟩
        · rw [hlen1]
          exact hlen
    · rw [if_neg hj0]
      show Inv ts1
      have hunfsame : ∀ g, unf ts1 g = unf ts g := by
        intro g
        have hu := hunf g
        by_cases hpg : t.parent = some g
        · simp [hpg, hjne, hj0] at hu
          omega
        · exact hunf0 g hpg
      intro g tg hg
      by_cases hgh : g = h
      · subst hgh
        have htg : tg = newt := Option.some.inj (hg.symm.trans hts1h)
        subst htg
        have hun := hunfsame g
        refine ⟨by omega, ?_, by omega⟩
        intro p hpe
        rw [hnp] at hpe
        exact hparlt p hpe
      · have hg' : ts[g]? = some tg := (hts1g g hgh).symm.trans hg
        have heq := hother g tg hg' hgh
        exact ⟨by rw [hunfsame g]; exact heq, (hpb g tg hg').1,
          by rw [hlen1]; exact (hpb g tg hg').2⟩

theorem unf_eq_zero_iff (ts : List Task) (g : Nat) :
    unf ts g = 0 ↔
      ∀ (i : Nat) (tg : Task), ts[i]? = some tg → tg.parent = some g → tg.jobs = 0 := by
  rw [unf, List.countP_eq_zero]
  constructor
  · intro hz i tg hi hp
    have hm : tg ∈ ts := List.getElem?_mem hi
    have := hz tg hm
    simp at this
    exact this hp
  · intro hz a ha
    obtain ⟨i, hi, hieq⟩ := List.mem_iff_getElem.mp ha
    have hsome : ts[i]? = some a := by rw [List.getElem?_eq_getElem hi, hieq]
    simp
    exact hz i a hsome

/-! ## Preservation of the invariant by each scheduler operation -/

theorem getElem?_append_single (ts : List Task) (t0 : Task) (g : Nat)
    (hg : ts.length ≤ g) :
    (ts ++ [t0])[g]? = if g = ts.length then some t0 else none := by
  rw [List.getElem?_append_right hg]
  by_cases he : g = ts.length
  · rw [if_pos he, he, Nat.sub_self]
    rfl
  · rw [if_neg he]
    cases hk : g - ts.length with
    | zero => omega
    | succ k => simp

theorem no_parent_at_length (ts : List Task) (hInv : Inv ts) :
    ∀ (i : Nat) (tg : Task), ts[i]? = some tg → tg.parent ≠ some ts.length := by
  intro i tg hi hc
  have hlt := getElem?_eq_some_lt hi
  have := (hInv i tg hi).2.1 ts.length hc
  omega

theorem inv_create (ts : List Task) (hInv : Inv ts) (name : String) (hc : Bool)
    (sl : Option (Nat × Nat)) :
    Inv (ts ++ [⟨hc, sl, 1, none, name, false⟩]) := by
  set t0 : Task := ⟨hc, sl, 1, none, name, false⟩ with ht0
  have hp0 : t0.parent = none := rfl
  have hj01 : t0.jobs = 1 := rfl
  have hlen : (ts ++ [t0]).length = ts.length + 1 := by simp
  intro g tg hg
  by_cases hgl : g < ts.length
  · rw [List.getElem?_append_left hgl] at hg
    obtain ⟨he, hpar, hb⟩ := hInv g tg hg
    refine ⟨?_, hpar, by omega⟩
    rw [unf_append, hp0]
    simpa using he
  · rw [getElem?_append_single ts t0 g (by omega)] at hg
    by_cases hgeq : g = ts.length
    · rw [if_pos hgeq] at hg
      have htg : tg = t0 := (Option.some.inj hg).symm
      subst htg
      subst hgeq
      have hz : unf (ts ++ [t0]) ts.length = 0 := by
        apply unf_eq_zero_of_no_parent
        intro i tg2 hi
        by_cases hil : i < ts.length
        · rw [List.getElem?_append_left hil] at hi
          exact no_parent_at_length ts hInv i tg2 hi
        · rw [getElem?_append_single ts t0 i (by omega)] at hi
          by_cases hieq : i = ts.length
          · rw [if_pos hieq] at hi
            have htg2 : tg2 = t0 := (Option.some.inj hi).symm
            subst htg2
            rw [hp0]
            exact fun e => Option.noConfusion e
          · rw [if_neg hieq] at hi
            exact Option.noConfusion hi
      refine ⟨?_, ?_, by omega⟩
      · rw [hz]
        rfl
      · intro p hpe
        rw [hp0] at hpe
        exact Option.noConfusion hpe
    · rw [if_neg hgeq] at hg
      exact Option.noConfusion hg

theorem inv_createChild (ts : List Task) (hInv : Inv ts) (p : Nat) (tp : Task)
    (hp : ts[p]? = some tp) (hjp : tp.jobs ≠ 0) (hlen : ts.length + 1 < u32Mod)
    (name : String) (hc : Bool) (sl : Option (Nat × Nat)) :
    Inv ((ts.set p { tp with jobs := inc32 tp.jobs }) ++
      [⟨hc, sl, 1, some p, name, false⟩]) := by
  have hplt : p < ts.length := getElem?_eq_some_lt hp
  have hbnd : tp.jobs ≤ ts.length := (hInv p tp hp).2.2
  have hincr : inc32 tp.jobs = tp.jobs + 1 := inc32_eq_add (by omega)
  set bump : Task := { tp with jobs := inc32 tp.jobs } with hbump
  set child : Task := ⟨hc, sl, 1, some p, name, false⟩ with hchild
  set ts1 : List Task := ts.set p bump with hts1
  have hbp : bump.parent = tp.parent := rfl
  have hbj : bump.jobs = inc32 tp.jobs := rfl
  have hbe : bump.executed = tp.executed := rfl
  have hbs : selfUnits bump = selfUnits tp := by simp only [selfUnits, hbe]
  have hcp : child.parent = some p := rfl
  have hts1p : ts1[p]? = some bump := List.getElem?_set_self hplt
  have hts1g : ∀ g, g ≠ p → ts1[g]? = ts[g]? :=
    fun g hg => List.getElem?_set_ne (Ne.symm hg)
  have hlen1 : ts1.length = ts.length := List.length_set ts p bump
  have hlen2 : (ts1 ++ [child]).length = ts.length + 1 := by simp [hlen1]
  have hcj : child.jobs = 1 := rfl
  have hsame : ∀ g, unf ts1 g = unf ts g := by
    intro g
    have hu := unf_set ts p tp bump g hp
    rw [← hts1] at hu
    rw [hbp, hbj, hincr] at hu
    have hne2 : tp.jobs + 1 ≠ 0 := by omega
    by_cases hpg : tp.parent = some g
    · rw [if_pos ⟨hpg, hjp⟩, if_pos ⟨hpg, hne2⟩] at hu
      omega
    · rw [if_neg (fun ha => hpg ha.1), if_neg (fun ha => hpg ha.1)] at hu
      omega
  have hunf2p : unf (ts1 ++ [child]) p = unf ts p + 1 := by
    rw [unf_append, hsame, hcp, hcj]
    simp
  have hunf2o : ∀ g, p ≠ g → unf (ts1 ++ [child]) g = unf ts g := by
    intro g hg
    rw [unf_append, hcp]
    rw [if_neg (fun ha => hg (Option.some.inj ha.1))]
    rw [hsame]
    omega
  intro g tg hg
  by_cases hgl : g < ts.length
  · rw [List.getElem?_append_left (by omega : g < ts1.length)] at hg
    by_cases hgp : g = p
    · subst hgp
      have htg : tg = bump := Option.some.inj (hg.symm.trans hts1p)
      subst htg
      obtain ⟨he, hpar, hb⟩ := hInv g tp hp
      refine ⟨?_, ?_, ?_⟩
      · rw [hunf2p, hbj, hincr, hbs]
        omega
      · intro pp hpe
        rw [hbp] at hpe
        exact hpar pp hpe
      · rw [hlen2, hbj, hincr]
        omega
    · rw [hts1g g hgp] at hg
      obtain ⟨he, hpar, hb⟩ := hInv g tg hg
      refine ⟨?_, hpar, by omega⟩
      rw [hunf2o g (fun e => hgp e.symm)]
      omega
  · rw [getElem?_append_single ts1 child g (by omega)] at hg
    by_cases hgeq : g = ts1.length
    · rw [if_pos hgeq] at hg
      have htg : tg = child := (Option.some.inj hg).symm
      subst htg
      have hz : unf (ts1 ++ [child]) g = 0 := by
        apply unf_eq_zero_of_no_parent
        intro i tg2 hi
        by_cases hil : i < ts.length
        · rw [List.getElem?_append_left (by omega : i < ts1.length)] at hi
          by_cases hip : i = p
          · subst hip
            have htg2 : tg2 = bump := Option.some.inj (hi.symm.trans hts1p)
            subst htg2
            rw [hbp]
            intro hc2
            have := (hInv i tp hp).2.1 g hc2
            omega
          · rw [hts1g i hip] at hi
            intro hc2
            have := (hInv i tg2 hi).2.1 g hc2
            have := getElem?_eq_some_lt hi
            omega
        · rw [getElem?_append_single ts1 child i (by omega)] at hi
          by_cases hieq : i = ts1.length
          · rw [if_pos hieq] at hi
            have htg2 : tg2 = child := (Option.some.inj hi).symm
            subst htg2
            rw [hcp]
            intro hc2
            have : p = g := Option.some.inj hc2
            omega
          · rw [if_neg hieq] at hi
            exact Option.noConfusion hi
      refine ⟨?_, ?_, ?_⟩
      · rw [hz]
        rfl
      · intro pp hpe
        rw [hcp] at hpe
        have : pp = p := (Option.some.inj hpe).symm
        omega
      · rw [hlen2]
        have : child.jobs = 1 := rfl
        omega
    · rw [if_neg hgeq] at hg
      exact Option.noConfusion hg

theorem setExecuted_eq (ts : List Task) (h : Nat) (t : Task) (hh : ts[h]? = some t) :
    setExecuted ts h = ts.set h { t with executed := true } := by
  simp [setExecuted, hh]

theorem setExecuted_length (ts : List Task) (h : Nat) :
    (setExecuted ts h).length = ts.length := by
  cases hm : ts[h]? with
  | none => simp [setExecuted, hm]
  | some t => simp [setExecuted, hm]

theorem inv_exec (ts : List Task) (hInv : Inv ts) (h : Nat) (t : Task)
    (hh : ts[h]? = some t) (hex : t.executed = false) (hlen : ts.length < u32Mod) :
    Inv (finishT (h + 1) (setExecuted ts h) h) := by
  have hlt : h < ts.length := getElem?_eq_some_lt hh
  rw [setExecuted_eq ts h t hh]
  set et : Task := { t with executed := true } with het
  set ts1 : List Task := ts.set h et with hts1
  have hej : et.jobs = t.jobs := rfl
  have hep : et.parent = t.parent := rfl
  have hsu : selfUnits et = 0 := by simp [selfUnits, het]
  have hsut : selfUnits t = 1 := by simp [selfUnits, hex]
  have hts1h : ts1[h]? = some et := List.getElem?_set_self hlt
  have hts1g : ∀ g, g ≠ h → ts1[g]? = ts[g]? :=
    fun g hg => List.getElem?_set_ne (Ne.symm hg)
  have hlen1 : ts1.length = ts.length := List.length_set ts h et
  have hsame : ∀ g, unf ts1 g = unf ts g := by
    intro g
    have hu := unf_set ts h t et g hh
    rw [← hts1, hep, hej] at hu
    omega
  obtain ⟨he, hpar, hb⟩ := hInv h t hh
  apply finishT_restores h ts1 et hts1h
  · rw [hej, hsame, hsu]
    omega
  · intro g tg hg hgh
    rw [hts1g g hgh] at hg
    have := (hInv g tg hg).1
    rw [hsame g]
    exact this
  · intro g tg hg
    by_cases hgh : g = h
    · subst hgh
      have htg : tg = et := Option.some.inj (hg.symm.trans hts1h)
      subst htg
      refine ⟨?_, ?_⟩
      · intro pp hpe
        rw [hep] at hpe
        exact hpar pp hpe
      · rw [hlen1, hej]
        omega
    · rw [hts1g g hgh] at hg
      exact ⟨(hInv g tg hg).2.1, by rw [hlen1]; exact (hInv g tg hg).2.2⟩
  · rw [hlen1]
    exact hlen

/-! ## The invariant holds in every reachable state -/

theorem run_tasks (s : SchedState) (h : Nat) (onMain : Bool) :
    (run s h onMain).tasks = s.tasks := by
  by_cases hm : onMain <;> simp [run, hm]

theorem execTask_tasks (s : SchedState) (h : Nat) :
    (execTask s h).tasks = finishT (h + 1) (setExecuted s.tasks h) h := rfl

theorem lstep_length_mono {s s' : SchedState} {e : Ev} (hstep : LStep s e s') :
    s.tasks.length ≤ s'.tasks.length := by
  cases hstep with
  | createS name hc sl => simp [create_internal]
  | createChildS p name hc sl hplt hjp =>
    obtain ⟨tp, htp⟩ : ∃ tp, s.tasks[p]? = some tp :=
      ⟨s.tasks.get ⟨p, hplt⟩, by rw [List.getElem?_eq_getElem hplt]; rfl⟩
    simp [create_as_child_internal, htp]
  | runS h onMain hh =>
    rw [run_tasks]
  | execWorkerS h rest hq hh hex =>
    rw [execTask_tasks, finishT_length, setExecuted_length]
  | execMainS h rest hq hh hex =>
    rw [execTask_tasks, finishT_length, setExecuted_length]

/-- Claim background: in every reachable state whose arena has not overflowed the
32-bit counter range, the completion-tracker invariant holds. -/
theorem reachable_inv {s : SchedState} (hr : Reachable s)
    (hlen : s.tasks.length < u32Mod) : Inv s.tasks := by
  revert hlen
  induction hr with
  | init =>
    intro _ g tg hg
    simp [initState] at hg
  | step s e s' hr hstep ih =>
    intro hlen'
    have hmono := lstep_length_mono hstep
    have hInv : Inv s.tasks := ih (by omega)
    cases hstep with
    | createS name hc sl =>
      exact inv_create s.tasks hInv name hc sl
    | createChildS p name hc sl hplt hjp =>
      obtain ⟨tp, htp⟩ : ∃ tp, s.tasks[p]? = some tp :=
        ⟨s.tasks.get ⟨p, hplt⟩, by rw [List.getElem?_eq_getElem hplt]; rfl⟩
      have hjp2 : tp.jobs ≠ 0 := by rwa [jobsAt_eq htp] at hjp
      have hred : (create_as_child_internal s p name hc sl).1.tasks =
          (s.tasks.set p { tp with jobs := inc32 tp.jobs }) ++
            [⟨hc, sl, 1, some p, name, false⟩] := by
        simp [create_as_child_internal, htp]
      rw [hred] at hlen' ⊢
      have hlh : ((s.tasks.set p { tp with jobs := inc32 tp.jobs }) ++
          [(⟨hc, sl, 1, some p, name, false⟩ : Task)]).length = s.tasks.length + 1 := by
        simp
      exact inv_createChild s.tasks hInv p tp htp hjp2 (by omega) name hc sl
    | runS h onMain hh =>
      rw [run_tasks]
      exact hInv
    | execWorkerS h rest hq hh hex =>
      obtain ⟨t, ht⟩ : ∃ t, s.tasks[h]? = some t :=
        ⟨s.tasks.get ⟨h, hh⟩, by rw [List.getElem?_eq_getElem hh]; rfl⟩
      have hex2 : t.executed = false := by rwa [executedAt_eq ht] at hex
      rw [execTask_tasks]
      exact inv_exec s.tasks hInv h t ht hex2 (by omega)
    | execMainS h rest hq hh hex =>
      obtain ⟨t, ht⟩ : ∃ t, s.tasks[h]? = some t :=
        ⟨s.tasks.get ⟨h, hh⟩, by rw [List.getElem?_eq_getElem hh]; rfl⟩
      have hex2 : t.executed = false := by rwa [executedAt_eq ht] at hex
      rw [execTask_tasks]
      exact inv_exec s.tasks hInv h t ht hex2 (by omega)

/-! ## A task with no children is only affected by its own events -/

theorem no_parent_set (ts : List Task) (h : Nat) (t newt : Task) (m : Nat)
    (hh : ts[h]? = some t) (hpar : newt.parent = t.parent)
    (hnp : ∀ (g : Nat) (tg : Task), ts[g]? = some tg → tg.parent ≠ some m) :
    ∀ (g : Nat) (tg : Task), (ts.set h newt)[g]? = some tg → tg.parent ≠ some m := by
  intro g tg hg
  by_cases hgh : g = h
  · subst hgh
    have htg : tg = newt :=
      Option.some.inj (hg.symm.trans (List.getElem?_set_self (getElem?_eq_some_lt hh)))
    subst htg
    rw [hpar]
    exact hnp g t hh
  · rw [List.getElem?_set_ne (Ne.symm hgh)] at hg
    exact hnp g tg hg

theorem finishT_no_parent (m : Nat) : ∀ (fuel : Nat) (ts : List Task) (h : Nat),
    (∀ (g : Nat) (tg : Task), ts[g]? = some tg → tg.parent ≠ some m) →
    ∀ (g : Nat) (tg : Task), (finishT fuel ts h)[g]? = some tg → tg.parent ≠ some m := by
  intro fuel
  induction fuel with
  | zero => intro ts h hnp; exact hnp
  | succ n ih =>
    intro ts h hnp
    simp only [finishT]
    cases hm2 : ts[h]? with
    | none => exact hnp
    | some t =>
      simp only
      have hnp1 := no_parent_set ts h t { t with jobs := dec32 t.jobs } m hm2 rfl hnp
      by_cases hj : dec32 t.jobs = 0
      · simp only [hj, eq_self_iff_true, if_true]
        simp only [hj] at hnp1
        cases hp : t.parent with
        | none =>
          rw [hp] at hnp1
          exact hnp1
        | some p =>
          rw [hp] at hnp1
          by_cases hph : p < h
          · simp only [hph, if_pos]
            exact ih _ p hnp1
          · simp only [hph, if_neg, ite_false]
            exact hnp1
      · simp only [hj, if_neg, ite_false]
        exact hnp1

theorem finishT_preserves (m : Nat) : ∀ (fuel : Nat) (ts : List Task) (h : Nat),
    h ≠ m →
    (∀ (g : Nat) (tg : Task), ts[g]? = some tg → tg.parent ≠ some m) →
    (finishT fuel ts h)[m]? = ts[m]? := by
  intro fuel
  induction fuel with
  | zero => intro ts h _ _; rfl
  | succ n ih =>
    intro ts h hhm hnp
    simp only [finishT]
    cases hm2 : ts[h]? with
    | none => rfl
    | some t =>
      simp only
      have hset : (ts.set h { t with jobs := dec32 t.jobs })[m]? = ts[m]? :=
        List.getElem?_set_ne hhm
      have hnp1 := no_parent_set ts h t { t with jobs := dec32 t.jobs } m hm2 rfl hnp
      by_cases hj : dec32 t.jobs = 0
      · simp only [hj, eq_self_iff_true, if_true]
        simp only [hj] at hnp1 hset
        cases hp : t.parent with
        | none =>
          rw [hp] at hset
          exact hset
        | some p =>
          rw [hp] at hnp1 hset
          have hpm : p ≠ m := fun e => (hnp h t hm2) (by rw [hp, e])
          by_cases hph : p < h
          · simp only [hph, if_pos]
            rw [ih _ p hpm hnp1]
            exact hset
          · simp only [hph, if_neg, ite_false]
            exact hset
      · simp only [hj, if_neg, ite_false]
        exact hset

theorem setExecuted_getElem?_ne (ts : List Task) (h m : Nat) (hhm : h ≠ m) :
    (setExecuted ts h)[m]? = ts[m]? := by
  cases hm2 : ts[h]? with
  | none => simp [setExecuted, hm2]
  | some t =>
    simp only [setExecuted, hm2]
    exact List.getElem?_set_ne hhm

theorem setExecuted_no_parent (ts : List Task) (h m : Nat)
    (hnp : ∀ (g : Nat) (tg : Task), ts[g]? = some tg → tg.parent ≠ some m) :
    ∀ (g : Nat) (tg : Task), (setExecuted ts h)[g]? = some tg → tg.parent ≠ some m := by
  cases hm2 : ts[h]? with
  | none => simpa [setExecuted, hm2] using hnp
  | some t =>
    simp only [setExecuted, hm2]
    exact no_parent_set ts h t { t with executed := true } m hm2 rfl hnp

/-- A single step that neither creates a child of `m` nor executes `m` leaves
the arena entry of a live handle `m` entirely unchanged, and preserves the fact
that `m` has no children. -/
theorem lstep_preserves (m : Nat) {s s2 : SchedState} {e : Ev} (hstep : LStep s e s2)
    (hm : m < s.tasks.length)
    (hu : touchesHandle m e = false)
    (hnp : ∀ (g : Nat) (tg : Task), s.tasks[g]? = some tg → tg.parent ≠ some m) :
    s2.tasks[m]? = s.tasks[m]? ∧
      (∀ (g : Nat) (tg : Task), s2.tasks[g]? = some tg → tg.parent ≠ some m) := by
  cases hstep with
  | createS name hc sl =>
    have hred : (create_internal s name hc sl).1.tasks =
        s.tasks ++ [⟨hc, sl, 1, none, name, false⟩] := rfl
    rw [hred]
    constructor
    · exact List.getElem?_append_left hm
    · intro g tg hg
      by_cases hgl : g < s.tasks.length
      · rw [List.getElem?_append_left hgl] at hg
        exact hnp g tg hg
      · rw [getElem?_append_single s.tasks _ g (by omega)] at hg
        by_cases hgeq : g = s.tasks.length
        · rw [if_pos hgeq] at hg
          have htg : tg = ⟨hc, sl, 1, none, name, false⟩ := (Option.some.inj hg).symm
          subst htg
          exact fun e2 => Option.noConfusion e2
        · rw [if_neg hgeq] at hg
          exact Option.noConfusion hg
  | createChildS p name hc sl hplt hjp =>
    have hpm : p ≠ m := by
      simp only [touchesHandle] at hu
      exact fun e2 => (by simp [e2] at hu)
    obtain ⟨tp, htp⟩ : ∃ tp, s.tasks[p]? = some tp :=
      ⟨s.tasks.get ⟨p, hplt⟩, by rw [List.getElem?_eq_getElem hplt]; rfl⟩
    have hred : (create_as_child_internal s p name hc sl).1.tasks =
        (s.tasks.set p { tp with jobs := inc32 tp.jobs }) ++
          [⟨hc, sl, 1, some p, name, false⟩] := by
      simp [create_as_child_internal, htp]
    rw [hred]
    have hnp1 := no_parent_set s.tasks p tp { tp with jobs := inc32 tp.jobs } m htp rfl hnp
    have hlset : (s.tasks.set p { tp with jobs := inc32 tp.jobs }).length = s.tasks.length :=
      List.length_set s.tasks p _
    constructor
    · rw [List.getElem?_append_left (by omega)]
      exact List.getElem?_set_ne hpm
    · intro g tg hg
      by_cases hgl : g < s.tasks.length
      · rw [List.getElem?_append_left (by omega)] at hg
        exact hnp1 g tg hg
      · rw [getElem?_append_single _ _ g (by omega)] at hg
        by_cases hgeq : g = (s.tasks.set p { tp with jobs := inc32 tp.jobs }).length
        · rw [if_pos hgeq] at hg
          have htg : tg = ⟨hc, sl, 1, some p, name, false⟩ := (Option.some.inj hg).symm
          subst htg
          intro e2
          exact hpm (Option.some.inj e2)
        · rw [if_neg hgeq] at hg
          exact Option.noConfusion hg
  | runS h onMain hh =>
    rw [run_tasks]
    exact ⟨rfl, hnp⟩
  | execWorkerS h rest hq hh hex =>
    have hhm : h ≠ m := by
      simp only [touchesHandle] at hu
      exact fun e2 => (by simp [e2] at hu)
    rw [execTask_tasks]
    have hnp1 := setExecuted_no_parent s.tasks h m hnp
    constructor
    · rw [finishT_preserves m (h+1) _ h hhm hnp1]
      exact setExecuted_getElem?_ne s.tasks h m hhm
    · exact finishT_no_parent m (h+1) _ h hnp1
  | execMainS h rest hq hh hex =>
    have hhm : h ≠ m := by
      simp only [touchesHandle] at hu
      exact fun e2 => (by simp [e2] at hu)
    rw [execTask_tasks]
    have hnp1 := setExecuted_no_parent s.tasks h m hnp
    constructor
    · rw [finishT_preserves m (h+1) _ h hhm hnp1]
      exact setExecuted_getElem?_ne s.tasks h m hhm
    · exact finishT_no_parent m (h+1) _ h hnp1

/-- Along any run whose events never create a child of `m` and never execute
`m`, the arena entry of `m` is unchanged. -/
theorem trace_preserves (m : Nat) : ∀ (evs : List Ev) (s s2 : SchedState),
    Trace s evs s2 →
    m < s.tasks.length →
    (∀ e ∈ evs, touchesHandle m e = false) →
    (∀ (g : Nat) (tg : Task), s.tasks[g]? = some tg → tg.parent ≠ some m) →
    s2.tasks[m]? = s.tasks[m]? := by
  intro evs
  induction evs with
  | nil =>
    intro s s2 htr _ _ _
    cases htr
    rfl
  | cons e evs ih =>
    intro s s2 htr hm hunt hnp
    cases htr with
    | cons _ _ s' _ _ hstep htr2 =>
      have hu1 : touchesHandle m e = false := hunt e (List.mem_cons_self e evs)
      have hrest : ∀ e2 ∈ evs, touchesHandle m e2 = false :=
        fun e2 he2 => hunt e2 (List.mem_cons_of_mem e he2)
      obtain ⟨hp1, hp2⟩ := lstep_preserves m hstep hm hu1 hnp
      have hm2 : m < s'.tasks.length := by
        have := lstep_length_mono hstep
        omega
      rw [ih s' s2 htr2 hm2 hrest hp2]
      exact hp1

/-! ## The parallel-for loop: iterator and slices -/

theorem pforIter_eq (b step : Nat) : ∀ n, pforIter b step n = b + n * step := by
  intro n
  induction n with
  | zero => simp [pforIter]
  | succ k ih =>
    simp only [pforIter, ih]
    ring

theorem pforSlices_nil (b e step : Nat) (h : e ≤ b) : pforSlices b e step = [] := by
  rw [pforSlices, Nat.sub_eq_zero_of_le h]
  rfl

theorem pforSlicesFuel_irrel (step : Nat) (hs : 0 < step) :
    ∀ (f1 f2 it e : Nat), e - it ≤ f1 → e - it ≤ f2 →
      pforSlicesFuel f1 it e step = pforSlicesFuel f2 it e step := by
  intro f1
  induction f1 with
  | zero =>
    intro f2 it e h1 h2
    cases f2 with
    | zero => rfl
    | succ k =>
      simp only [pforSlicesFuel]
      rw [if_neg (by omega)]
  | succ n ih =>
    intro f2 it e h1 h2
    cases f2 with
    | zero =>
      simp only [pforSlicesFuel]
      rw [if_neg (by omega)]
    | succ k =>
      simp only [pforSlicesFuel]
      by_cases hit : it < e
      · rw [if_pos hit, if_pos hit, ih k (it + step) e (by omega) (by omega)]
      · rw [if_neg hit, if_neg hit]

/-- For a positive step the fuelled slice list satisfies the recursion of the
source loop `for (auto it = begin; it < end; it += step)`. -/
theorem pforSlices_cons (b e step : Nat) (hs : 0 < step) (hlt : b < e) :
    pforSlices b e step = (b, b + step) :: pforSlices (b + step) e step := by
  rw [pforSlices, pforSlices]
  obtain ⟨n, hn⟩ : ∃ n, e - b = n + 1 := ⟨e - b - 1, by omega⟩
  rw [hn]
  simp only [pforSlicesFuel]
  rw [if_pos hlt]
  congr 1
  exact pforSlicesFuel_irrel step hs n (e - (b + step)) (b + step) e (by omega) (by omega)

/-- Shape of the slice list of a nonempty loop: the last slice starts below
`end`, stops at or past `end` with the overshoot measured by the division
remainder, and the slices cover everything from `begin` up to the last stop. -/
theorem pforSlices_last_spec (step : Nat) (hs : 0 < step) :
    ∀ (n b e : Nat), e - b = n → b < e →
      ∃ lo, (pforSlices b e step).getLast? = some (lo, lo + step) ∧
        lo < e ∧ e ≤ lo + step ∧
        (e - b) % step = (e - lo) % step ∧
        (∀ x, b ≤ x → x < lo + step → coveredSl (pforSlices b e step) x = true) := by
  intro n
  induction n using Nat.strong_induction_on with
  | _ n ih =>
    intro b e hn hlt
    rw [pforSlices_cons b e step hs hlt]
    by_cases hbe : b + step < e
    · have hsub : e - (b + step) < n := by omega
      obtain ⟨lo, hl, hlo1, hlo2, hmod, hcov⟩ := ih (e - (b + step)) hsub (b + step) e rfl hbe
      refine ⟨lo, ?_, hlo1, hlo2, ?_, ?_⟩
      · have htail : pforSlices (b + step) e step =
            (b + step, b + step + step) :: pforSlices (b + step + step) e step :=
          pforSlices_cons (b + step) e step hs hbe
        rw [htail, List.getLast?_cons_cons, ← htail]
        exact hl
      · have h1 : e - b = (e - (b + step)) + step := by omega
        rw [h1, Nat.add_mod_right, hmod]
      · intro x hx1 hx2
        rw [coveredSl, List.any_cons, Bool.or_eq_true]
        by_cases hxf : x < b + step
        · left
          simp [hx1, hxf]
        · right
          have hc := hcov x (by omega) hx2
          rw [coveredSl] at hc
          exact hc
    · have htail : pforSlices (b + step) e step = [] := pforSlices_nil _ _ _ (by omega)
      rw [htail]
      refine ⟨b, rfl, hlt, by omega, rfl, ?_⟩
      intro x hx1 hx2
      rw [coveredSl]
      simp [hx1, hx2]

/-! ## Transitive descendants -/

/-- `Desc ts c h`: the task at `c` is a transitively-created child of `h`
(its parent chain reaches `h`). -/
inductive Desc (ts : List Task) : Nat → Nat → Prop where
  | child : ∀ c h, parentAt ts c = some h → Desc ts c h
  | trans : ∀ c d h, parentAt ts c = some d → Desc ts d h → Desc ts c h

theorem desc_jobs_zero (ts : List Task) (hInv : Inv ts) :
    ∀ (c h : Nat), Desc ts c h → ∀ (t : Task), ts[h]? = some t → t.jobs = 0 →
      ∀ (tc : Task), ts[c]? = some tc → tc.jobs = 0 := by
  intro c h hdesc
  induction hdesc with
  | child c h hpar =>
    intro t hh hz tc hc
    have h1 := (hInv h t hh).1
    have hunfz : unf ts h = 0 := by omega
    exact (unf_eq_zero_iff ts h).mp hunfz c tc hc (by rwa [parentAt_eq hc] at hpar)
  | trans c d h hpar hdesc2 ih =>
    intro t hh hz tc hc
    have hpc : tc.parent = some d := by rwa [parentAt_eq hc] at hpar
    have hdc : d < c := (hInv c tc hc).2.1 d hpc
    have hcl : c < ts.length := getElem?_eq_some_lt hc
    obtain ⟨td, hd⟩ : ∃ td, ts[d]? = some td :=
      ⟨ts.get ⟨d, by omega⟩, by rw [List.getElem?_eq_getElem (by omega : d < ts.length)]; rfl⟩
    have hdz : td.jobs = 0 := ih t hh hz td hd
    have h1 := (hInv d td hd).1
    have hunfz : unf ts d = 0 := by omega
    exact (unf_eq_zero_iff ts d).mp hunfz c tc hc hpc

/-! ## One-step characterization of the finish pass -/

theorem finishT_succ_stop (fuel : Nat) (ts : List Task) (h : Nat) (t : Task)
    (ht : ts[h]? = some t) (hne : dec32 t.jobs ≠ 0) :
    finishT (fuel+1) ts h = ts.set h { t with jobs := dec32 t.jobs } := by
  rw [finishT_succ fuel ts h t ht, if_neg hne]

theorem finishT_succ_none (fuel : Nat) (ts : List Task) (h : Nat) (t : Task)
    (ht : ts[h]? = some t) (hz : dec32 t.jobs = 0) (hp : t.parent = none) :
    finishT (fuel+1) ts h = ts.set h { t with jobs := 0 } := by
  rw [finishT_succ fuel ts h t ht, if_pos hz, hp, ← hz]

theorem finishT_succ_some (fuel : Nat) (ts : List Task) (h : Nat) (t : Task) (p : Nat)
    (ht : ts[h]? = some t) (hz : dec32 t.jobs = 0) (hp : t.parent = some p)
    (hph : p < h) :
    finishT (fuel+1) ts h = finishT fuel (ts.set h { t with jobs := 0 }) p := by
  rw [finishT_succ fuel ts h t ht, if_pos hz, hp]
  show (if p < h then
          finishT fuel (ts.set h ⟨t.hasClosure, t.slice, dec32 t.jobs, some p, t.name, t.executed⟩) p
        else ts.set h ⟨t.hasClosure, t.slice, dec32 t.jobs, some p, t.name, t.executed⟩) = _
  rw [if_pos hph, hz, ← hp]

theorem getElem?_concat_self (ts : List Task) (t0 : Task) :
    (ts ++ [t0])[ts.length]? = some t0 := by
  rw [getElem?_append_single ts t0 ts.length (le_refl _), if_pos rfl]

/-- Executing a task that never had a child drives its counter straight to 0
(its pre-execution counter is exactly 1 by the invariant). -/
theorem exec_childless_zero (ts : List Task) (hInv : Inv ts) (T : Nat) (t : Task)
    (ht : ts[T]? = some t) (hex : t.executed = false)
    (hnc : ∀ (g : Nat) (tg : Task), ts[g]? = some tg → tg.parent ≠ some T) :
    jobsAt (finishT (T + 1) (setExecuted ts T) T) T = 0 := by
  have hlt : T < ts.length := getElem?_eq_some_lt ht
  have hunfz : unf ts T = 0 := unf_eq_zero_of_no_parent ts T hnc
  have hsu : selfUnits t = 1 := by simp [selfUnits, hex]
  have hj1 : t.jobs = 1 := by
    have := (hInv T t ht).1
    omega
  rw [setExecuted_eq ts T t ht]
  set et : Task := { t with executed := true } with het
  set ts1 : List Task := ts.set T et with hts1
  have hej : et.jobs = 1 := by rw [het]; exact hj1
  have hep : et.parent = t.parent := rfl
  have hts1T : ts1[T]? = some et := List.getElem?_set_self hlt
  have hdz : dec32 et.jobs = 0 := by rw [hej]; decide
  cases hp : t.parent with
  | none =>
    rw [finishT_succ_none T ts1 T et hts1T hdz (by rw [hep, hp])]
    rw [jobsAt_eq (List.getElem?_set_self (by rw [hts1, List.length_set]; exact hlt))]
  | some p =>
    have hph : p < T := (hInv T t ht).2.1 p hp
    rw [finishT_succ_some T ts1 T et p hts1T hdz (by rw [hep, hp]) hph]
    have hnc1 : ∀ (g : Nat) (tg : Task), ts1[g]? = some tg → tg.parent ≠ some T :=
      no_parent_set ts T t et T ht rfl hnc
    have hnc2 : ∀ (g : Nat) (tg : Task),
        (ts1.set T { et with jobs := 0 })[g]? = some tg → tg.parent ≠ some T :=
      no_parent_set ts1 T et { et with jobs := 0 } T hts1T rfl hnc1
    have hpres : (finishT T (ts1.set T { et with jobs := 0 }) p)[T]? =
        (ts1.set T { et with jobs := 0 })[T]? :=
      finishT_preserves T T _ p (by omega) hnc2
    have hsetT : (ts1.set T { et with jobs := 0 })[T]? = some { et with jobs := 0 } :=
      List.getElem?_set_self (by rw [hts1, List.length_set]; exact hlt)
    rw [jobsAt_eq (hpres.trans hsetT)]

/-! ## Concrete scenarios used by the claims -/

/-- A single root task with a closure, created on a fresh scheduler. -/
def exCreated : SchedState := (createWithClosure initState "t").1

/-- The same scheduler after `run` enqueues handle 0 on the worker queue. -/
def exQueued : SchedState := run exCreated 0 false

/-- The same scheduler after a worker dequeues and executes handle 0. -/
def exDone : SchedState := execTask { exQueued with otherTasks := [] } 0

/-- The parallel-for scenario of the spec: range `[0, 100)` with `step = 10`. -/
def pfInit : SchedState × Nat := create_parallel_for initState "pf" 0 100 10

/-- Execute the first `n` entries of the worker queue, in FIFO order. -/
def execAllWorker : Nat → SchedState → SchedState
  | 0, s => s
  | n+1, s =>
    match s.otherTasks with
    | [] => s
    | h :: rest => execAllWorker n (execTask { s with otherTasks := rest } h)

/-- The parallel-for scenario after all ten children have been executed. -/
def pfDone : SchedState := execAllWorker 10 pfInit.1

theorem reachable_exCreated : Reachable exCreated :=
  .step initState (.createT "t" true none) exCreated .init (.createS initState "t" true none)

theorem reachable_exQueued : Reachable exQueued :=
  .step exCreated (.runT 0 false) exQueued reachable_exCreated
    (.runS exCreated 0 false (by decide))

theorem lstep_exQueued_exDone : LStep exQueued (.execT 0 false) exDone :=
  .execWorkerS exQueued 0 [] rfl (by decide) (by decide)

theorem reachable_exDone : Reachable exDone :=
  .step exQueued (.execT 0 false) exDone reachable_exQueued lstep_exQueued_exDone

/-! ## Reachability of the parallel-for scenario -/

theorem executedAt_set_jobs (ts : List Task) (h : Nat) (t : Task) (j : Nat)
    (ht : ts[h]? = some t) :
    ∀ g, executedAt (ts.set h { t with jobs := j }) g = executedAt ts g := by
  intro g
  by_cases hgh : g = h
  · subst hgh
    rw [executedAt_eq (List.getElem?_set_self (getElem?_eq_some_lt ht)), executedAt_eq ht]
  · simp only [executedAt, List.getElem?_set_ne (Ne.symm hgh)]

theorem finishT_executedAt : ∀ (fuel : Nat) (ts : List Task) (h g : Nat),
    executedAt (finishT fuel ts h) g = executedAt ts g := by
  intro fuel
  induction fuel with
  | zero => intro ts h g; rfl
  | succ n ih =>
    intro ts h g
    simp only [finishT]
    cases hm : ts[h]? with
    | none => rfl
    | some t =>
      simp only
      have hx := executedAt_set_jobs ts h t (dec32 t.jobs) hm g
      by_cases hj : dec32 t.jobs = 0
      · simp only [hj, eq_self_iff_true, if_true]
        rw [hj] at hx
        cases hp : t.parent with
        | none =>
          rw [hp] at hx
          exact hx
        | some p =>
          rw [hp] at hx
          by_cases hph : p < h
          · simp only [hph, if_pos]
            rw [ih]
            exact hx
          · simp only [hph, if_neg, ite_false]
            exact hx
      · simp only [hj, if_neg, ite_false]
        exact hx

theorem setExecuted_executedAt_ne (ts : List Task) (h g : Nat) (hgh : g ≠ h) :
    executedAt (setExecuted ts h) g = executedAt ts g := by
  cases hm : ts[h]? with
  | none => simp [setExecuted, hm]
  | some t =>
    simp only [setExecuted, hm, executedAt, List.getElem?_set_ne (Ne.symm hgh)]

/-- Every state produced by the body of `create_parallel_for` is a protocol
run: each iteration is a legal child-creation step followed by a `run` step. -/
theorem pforBody_reachable : ∀ (fuel : Nat) (s : SchedState) (master : Nat)
    (name : String) (it e step : Nat),
    Reachable s → master < s.tasks.length →
    jobsAt s.tasks master ≠ 0 →
    jobsAt s.tasks master + fuel < u32Mod →
    Reachable (pforBody fuel s master name it e step) := by
  intro fuel
  induction fuel with
  | zero => intro s master name it e step hr _ _ _; exact hr
  | succ n ih =>
    intro s master name it e step hr hlt hjm hbnd
    simp only [pforBody]
    by_cases hit : it < e
    · rw [if_pos hit]
      obtain ⟨tm, htm⟩ : ∃ tm, s.tasks[master]? = some tm :=
        ⟨s.tasks.get ⟨master, hlt⟩, by rw [List.getElem?_eq_getElem hlt]; rfl⟩
      have hjm2 : jobsAt s.tasks master = tm.jobs := jobsAt_eq htm
      have hstep1 : LStep s (.createChildT master name true (some (it, it + step)))
          (create_as_child_internal s master name true (some (it, it + step))).1 :=
        .createChildS s master name true (some (it, it + step)) hlt hjm
      have hred : create_as_child_internal s master name true (some (it, it + step)) =
          ({ s with tasks := (s.tasks.set master { tm with jobs := inc32 tm.jobs }) ++
              [⟨true, some (it, it + step), 1, some master, name, false⟩] },
           s.tasks.length) := by
        simp [create_as_child_internal, htm]
      have hlen2 : (create_as_child_internal s master name true
          (some (it, it + step))).1.tasks.length = s.tasks.length + 1 := by
        rw [hred]
        simp
      have hjm3 : jobsAt (create_as_child_internal s master name true
          (some (it, it + step))).1.tasks master = tm.jobs + 1 := by
        rw [hred]
        have hparent : ((s.tasks.set master { tm with jobs := inc32 tm.jobs }) ++
            [(⟨true, some (it, it + step), 1, some master, name, false⟩ : Task)])[master]? =
            some { tm with jobs := inc32 tm.jobs } := by
          rw [List.getElem?_append_left (by rw [List.length_set]; exact hlt)]
          exact List.getElem?_set_self hlt
        show jobsAt ((s.tasks.set master { tm with jobs := inc32 tm.jobs }) ++
            [⟨true, some (it, it + step), 1, some master, name, false⟩]) master = tm.jobs + 1
        rw [jobsAt_eq hparent]
        show inc32 tm.jobs = tm.jobs + 1
        exact inc32_eq_add (by omega)
      have hstep2 : LStep (create_as_child_internal s master name true
            (some (it, it + step))).1
          (.runT (create_as_child_internal s master name true (some (it, it + step))).2 false)
          (run (create_as_child_internal s master name true (some (it, it + step))).1
            (create_as_child_internal s master name true (some (it, it + step))).2 false) := by
        apply LStep.runS
        rw [hlen2, hred]
        show s.tasks.length < s.tasks.length + 1
        omega
      apply ih
      · exact .step _ _ _ (.step _ _ _ hr hstep1) hstep2
      · rw [run_tasks, hlen2]
        omega
      · rw [run_tasks, hjm3]
        omega
      · rw [run_tasks, hjm3]
        omega
    · rw [if_neg hit]
      exact hr

/-- Draining the worker queue is a sequence of legal execution steps, as long
as the queued handles are live, distinct, and not yet executed. -/
theorem execAllWorker_reachable : ∀ (n : Nat) (s : SchedState),
    Reachable s → s.otherTasks.Nodup →
    (∀ h ∈ s.otherTasks, h < s.tasks.length ∧ executedAt s.tasks h = false) →
    Reachable (execAllWorker n s) := by
  intro n
  induction n with
  | zero => intro s hr _ _; exact hr
  | succ k ih =>
    intro s hr hnd hq
    simp only [execAllWorker]
    cases hq2 : s.otherTasks with
    | nil => exact hr
    | cons h0 rest =>
      obtain ⟨hlt, hex⟩ := hq h0 (by rw [hq2]; exact List.mem_cons_self h0 rest)
      have hstep : LStep s (.execT h0 false) (execTask { s with otherTasks := rest } h0) :=
        .execWorkerS s h0 rest hq2 hlt hex
      have hndr : rest.Nodup := by
        rw [hq2] at hnd
        exact (List.nodup_cons.mp hnd).2
      have hh0r : h0 ∉ rest := by
        rw [hq2] at hnd
        exact (List.nodup_cons.mp hnd).1
      apply ih
      · exact .step _ _ _ hr hstep
      · exact hndr
      · intro h hh
        have hne : h ≠ h0 := fun e => hh0r (e ▸ hh)
        have hmem : h ∈ s.otherTasks := by
          rw [hq2]
          exact List.mem_cons_of_mem h0 hh
        obtain ⟨hlt2, hex2⟩ := hq h hmem
        constructor
        · rw [execTask_tasks, finishT_length, setExecuted_length]
          exact hlt2
        · rw [execTask_tasks, finishT_executedAt, setExecuted_executedAt_ne _ _ _ hne]
          exact hex2

theorem reachable_pfInit : Reachable pfInit.1 := by
  show Reachable (pforBody (100 - 0) (create_internal initState "pf" false none).1
    (create_internal initState "pf" false none).2 "pf" 0 100 10)
  apply pforBody_reachable
  · exact .step initState (.createT "pf" false none) _ .init
      (.createS initState "pf" false none)
  · decide
  · decide
  · decide

theorem reachable_pfDone : Reachable pfDone := by
  apply execAllWorker_reachable 10 pfInit.1 reachable_pfInit
  · decide
  · decide

/-! ## Claim C1 -/

/-- Claim C1 as stated is refuted by a closure-less root task that is never
run: its closure "was absent" and it has no children, yet its pending counter
is 1, not 0.  The state below is reachable in one `create` step. -/
theorem c1_counterexample :
    Reachable (create initState "m").1 ∧
    ¬ (jobsAt (create initState "m").1.tasks 0 = 0 ↔
        ((hasClosureAt (create initState "m").1.tasks 0 = false ∨
          executedAt (create initState "m").1.tasks 0 = true) ∧
         ∀ (c : Nat) (tc : Task), (create initState "m").1.tasks[c]? = some tc →
           Desc (create initState "m").1.tasks c 0 → tc.jobs = 0)) := by
  constructor
  · exact .step initState (.createT "m" false none) (create initState "m").1 .init
      (.createS initState "m" false none)
  · intro hiff
    have hpn : ∀ (c d : Nat), parentAt (create initState "m").1.tasks c ≠ some d := by
      intro c d
      match c with
      | 0 => simp [parentAt, create, create_internal, initState]
      | c+1 => simp [parentAt, create, create_internal, initState]
    have hnd : ∀ (c h2 : Nat), ¬ Desc (create initState "m").1.tasks c h2 := by
      intro c h2 hd
      induction hd with
      | child c2 h3 hpar => exact hpn c2 h3 hpar
      | trans c2 d h3 hpar hd2 ih => exact hpn c2 d hpar
    have hz : jobsAt (create initState "m").1.tasks 0 = 0 :=
      hiff.mpr ⟨Or.inl (by decide), fun c tc _ hd => absurd hd (hnd c 0)⟩
    have h1 : jobsAt (create initState "m").1.tasks 0 = 1 := by decide
    omega

/-- Claim C1 (amended): in every reachable state (with the arena below the
32-bit range) each task's pending counter is nonnegative, and it is exactly 0
iff the task has been executed (its closure run, or the no-op for an absent
closure) and every transitively-created child has also reached pending 0. -/
theorem c1_pending_invariant {s : SchedState} (hr : Reachable s)
    (hlen : s.tasks.length < u32Mod) (h : Nat) (t : Task)
    (ht : s.tasks[h]? = some t) :
    0 ≤ t.jobs ∧
    (t.jobs = 0 ↔ (t.executed = true ∧
      ∀ (c : Nat) (tc : Task), s.tasks[c]? = some tc →
        Desc s.tasks c h → tc.jobs = 0)) := by
  have hInv := reachable_inv hr hlen
  refine ⟨Nat.zero_le _, ?_, ?_⟩
  · intro hz
    have h1 := (hInv h t ht).1
    have hex : t.executed = true := by
      by_cases he : t.executed = true
      · exact he
      · exfalso
        rw [Bool.not_eq_true] at he
        have : selfUnits t = 1 := by simp [selfUnits, he]
        omega
    refine ⟨hex, ?_⟩
    intro c tc hc hdesc
    exact desc_jobs_zero s.tasks hInv c h hdesc t ht hz tc hc
  · rintro ⟨hex, hdz⟩
    have h1 := (hInv h t ht).1
    have hs0 : selfUnits t = 0 := by simp [selfUnits, hex]
    have hunfz : unf s.tasks h = 0 := by
      rw [unf_eq_zero_iff]
      intro c tc hc hpc
      exact hdz c tc hc (.child c h (by rw [parentAt_eq hc]; exact hpc))
    omega

/-- Witness for the amended claim C1: the single executed root task. -/
theorem c1_pending_invariant_witness :
    Reachable exDone ∧ exDone.tasks.length < u32Mod ∧
    exDone.tasks[0]? = some ⟨true, none, 0, none, "t", true⟩ ∧
    (0 ≤ (0:Nat) ∧
      ((0:Nat) = 0 ↔ (true = true ∧
        ∀ (c : Nat) (tc : Task), exDone.tasks[c]? = some tc →
          Desc exDone.tasks c 0 → tc.jobs = 0))) :=
  ⟨reachable_exDone, by decide, by decide,
    c1_pending_invariant reachable_exDone (by decide) 0
      ⟨true, none, 0, none, "t", true⟩ (by decide)⟩

/-! ## Claim C2 -/

/-- Claim C2: the finish step after a task's closure returns (spec-modelled
`TaskSystem::finish`): (1) it decrements the task's own pending by 1 (the
32-bit decrement is an exact minus-one for a positive counter); (2) if the
post-decrement value is 0 and the task has a parent, it recursively performs
the same finish step on the parent; (3) if the post-decrement value is
nonzero it stops, touching nothing but the task's own counter. -/
theorem c2_finish_step (s : SchedState) (h : Nat) (t : Task)
    (ht : s.tasks[h]? = some t) (hb : t.jobs < u32Mod) :
    (0 < t.jobs → dec32 t.jobs = t.jobs - 1) ∧
    (dec32 t.jobs ≠ 0 →
      finish s h = { s with tasks := s.tasks.set h { t with jobs := dec32 t.jobs } }) ∧
    (dec32 t.jobs = 0 → ∀ p, t.parent = some p → p < h →
      finish s h = finish { s with tasks := s.tasks.set h { t with jobs := 0 } } p) ∧
    (dec32 t.jobs = 0 → t.parent = none →
      finish s h = { s with tasks := s.tasks.set h { t with jobs := 0 } }) := by
  refine ⟨?_, ?_, ?_, ?_⟩
  · intro hpos
    exact dec32_eq_sub hpos hb
  · intro hne
    rw [finish, finishT_succ_stop h s.tasks h t ht hne]
  · intro hz p hp hph
    rw [finish, finishT_succ_some h s.tasks h t p ht hz hp hph,
      finishT_irrel p h (p+1) _ hph (Nat.lt_succ_self p)]
    rfl
  · intro hz hp
    rw [finish, finishT_succ_none h s.tasks h t ht hz hp]

/-- Witness for claim C2 at the queued single-task state (counter 1, no
parent): the decrement is 1 - 1 = 0 and the no-parent branch applies. -/
theorem c2_finish_step_witness :
    exQueued.tasks[0]? = some ⟨true, none, 1, none, "t", false⟩ ∧
    (⟨true, none, 1, none, "t", false⟩ : Task).jobs < u32Mod ∧
    ((0 < (⟨true, none, 1, none, "t", false⟩ : Task).jobs →
        dec32 1 = 1 - 1) ∧
     (dec32 1 ≠ 0 →
        finish exQueued 0 =
          { exQueued with
            tasks := exQueued.tasks.set 0 (⟨true, none, dec32 1, none, "t", false⟩ : Task) }) ∧
     (dec32 1 = 0 → ∀ p, (some p : Option Nat) = some p → True) ∧
     (dec32 1 = 0 → (none : Option Nat) = none →
        finish exQueued 0 =
          { exQueued with
            tasks := exQueued.tasks.set 0 (⟨true, none, 0, none, "t", false⟩ : Task) })) := by
  have hmain := c2_finish_step exQueued 0 ⟨true, none, 1, none, "t", false⟩
    (by decide) (by decide)
  exact ⟨by decide, by decide, hmain.1, hmain.2.1, fun _ p _ => trivial, hmain.2.2.2⟩

/-! ## Claim C3 -/

/-- Claim C3: every task's pending counter is initialized to 1 at creation
(spec-modelled `create_internal`), and `create_as_child` increments the
parent's pending by exactly 1 at the moment the child is created: in the state
returned by the call the parent is already incremented while both queues are
untouched and the new child is not yet executed — so the increment precedes any
possibility of enqueueing or running the child. -/
theorem c3_child_increment (s : SchedState) (name : String) (hc : Bool)
    (sl : Option (Nat × Nat)) (p : Nat) (tp : Task) (hp : s.tasks[p]? = some tp)
    (hnw : tp.jobs + 1 < u32Mod) :
    jobsAt (create_internal s name hc sl).1.tasks (create_internal s name hc sl).2 = 1 ∧
    jobsAt (create_as_child_internal s p name hc sl).1.tasks
      (create_as_child_internal s p name hc sl).2 = 1 ∧
    parentAt (create_as_child_internal s p name hc sl).1.tasks
      (create_as_child_internal s p name hc sl).2 = some p ∧
    executedAt (create_as_child_internal s p name hc sl).1.tasks
      (create_as_child_internal s p name hc sl).2 = false ∧
    jobsAt (create_as_child_internal s p name hc sl).1.tasks p = tp.jobs + 1 ∧
    (create_as_child_internal s p name hc sl).1.mainTasks = s.mainTasks ∧
    (create_as_child_internal s p name hc sl).1.otherTasks = s.otherTasks := by
  have hplt : p < s.tasks.length := getElem?_eq_some_lt hp
  have hred : create_as_child_internal s p name hc sl =
      ({ s with tasks := (s.tasks.set p { tp with jobs := inc32 tp.jobs }) ++
          [⟨hc, sl, 1, some p, name, false⟩] }, s.tasks.length) := by
    simp [create_as_child_internal, hp]
  have hchild : ((s.tasks.set p { tp with jobs := inc32 tp.jobs }) ++
      [(⟨hc, sl, 1, some p, name, false⟩ : Task)])[s.tasks.length]? =
      some ⟨hc, sl, 1, some p, name, false⟩ := by
    have hcc := getElem?_concat_self
      (s.tasks.set p { tp with jobs := inc32 tp.jobs }) ⟨hc, sl, 1, some p, name, false⟩
    rwa [List.length_set] at hcc
  have hparent : ((s.tasks.set p { tp with jobs := inc32 tp.jobs }) ++
      [(⟨hc, sl, 1, some p, name, false⟩ : Task)])[p]? =
      some { tp with jobs := inc32 tp.jobs } := by
    rw [List.getElem?_append_left (by rw [List.length_set]; exact hplt)]
    exact List.getElem?_set_self hplt
  refine ⟨?_, ?_, ?_, ?_, ?_, ?_, ?_⟩
  · exact jobsAt_eq (getElem?_concat_self s.tasks ⟨hc, sl, 1, none, name, false⟩)
  · rw [hred]
    exact jobsAt_eq hchild
  · rw [hred]
    exact parentAt_eq hchild
  · rw [hred]
    exact executedAt_eq hchild
  · rw [hred]
    show jobsAt ((s.tasks.set p { tp with jobs := inc32 tp.jobs }) ++
        [⟨hc, sl, 1, some p, name, false⟩]) p = tp.jobs + 1
    rw [jobsAt_eq hparent]
    show inc32 tp.jobs = tp.jobs + 1
    exact inc32_eq_add hnw
  · rw [hred]
  · rw [hred]

/-- Witness for claim C3: creating a child of the single live task. -/
theorem c3_child_increment_witness :
    exCreated.tasks[0]? = some ⟨true, none, 1, none, "t", false⟩ ∧
    (⟨true, none, 1, none, "t", false⟩ : Task).jobs + 1 < u32Mod ∧
    (jobsAt (create_internal exCreated "c" true none).1.tasks
        (create_internal exCreated "c" true none).2 = 1 ∧
     jobsAt (create_as_child_internal exCreated 0 "c" true none).1.tasks
        (create_as_child_internal exCreated 0 "c" true none).2 = 1 ∧
     parentAt (create_as_child_internal exCreated 0 "c" true none).1.tasks
        (create_as_child_internal exCreated 0 "c" true none).2 = some 0 ∧
     executedAt (create_as_child_internal exCreated 0 "c" true none).1.tasks
        (create_as_child_internal exCreated 0 "c" true none).2 = false ∧
     jobsAt (create_as_child_internal exCreated 0 "c" true none).1.tasks 0 =
        (⟨true, none, 1, none, "t", false⟩ : Task).jobs + 1 ∧
     (create_as_child_internal exCreated 0 "c" true none).1.mainTasks =
        exCreated.mainTasks ∧
     (create_as_child_internal exCreated 0 "c" true none).1.otherTasks =
        exCreated.otherTasks) :=
  ⟨by decide, by decide,
    c3_child_increment exCreated "c" true none 0 ⟨true, none, 1, none, "t", false⟩
      (by decide) (by decide)⟩

/-! ## Claim C4 -/

set_option maxRecDepth 16384 in
/-- Claim C4, as stated, fails at the concrete scenario it describes: the
state `pfDone` is reachable, every one of the ten children of the
`[0, 100)`-step-10 parallel-for has executed in it, yet the master has NOT
completed — its pending counter is still 1, because the master's own unit
(`pending` initialized to 1, never removed by execution since the master has
no closure and is never run) is not removed by the children's cascades. -/
theorem c4_counterexample :
    Reachable pfDone ∧
    (∀ h, h ≤ 10 → (1 ≤ h → executedAt pfDone.tasks h = true ∧
      jobsAt pfDone.tasks h = 0)) ∧
    is_completed pfDone 0 = false := by
  exact ⟨reachable_pfDone, by decide, by decide⟩

set_option maxRecDepth 16384 in
/-- Claim C4 (amended): `create_parallel_for("pf", closure, 0, 100, 10)`
creates a closure-less master task plus one child per `[it, it+step)` slice
bound to the closure, enqueuing each child onto the worker queue immediately;
exactly 10 children are created, whose slices exactly cover `[0, 100)` with no
overlap and no gaps; the master is not complete while any child is pending,
and it is still not complete after all 10 children have executed — its
pending counter then equals 1, and only one further explicit finish step
completes it. -/
theorem c4_parallel_for :
    pfInit.2 = 0 ∧
    hasClosureAt pfInit.1.tasks 0 = false ∧
    jobsAt pfInit.1.tasks 0 = 11 ∧
    pfInit.1.tasks.length = 11 ∧
    pfInit.1.otherTasks = [1, 2, 3, 4, 5, 6, 7, 8, 9, 10] ∧
    pfInit.1.mainTasks = [] ∧
    (pfInit.1.tasks.drop 1).map Task.slice = (pforSlices 0 100 10).map some ∧
    (∀ h, h ≤ 10 → (1 ≤ h → parentAt pfInit.1.tasks h = some 0 ∧
      hasClosureAt pfInit.1.tasks h = true)) ∧
    pforSlices 0 100 10 =
      [(0, 10), (10, 20), (20, 30), (30, 40), (40, 50),
       (50, 60), (60, 70), (70, 80), (80, 90), (90, 100)] ∧
    (pforSlices 0 100 10).length = 10 ∧
    (∀ x, coveredSl (pforSlices 0 100 10) x = true ↔ x < 100) ∧
    (∀ x, x < 100 → (pforSlices 0 100 10).countP
      (fun sl => decide (sl.1 ≤ x) && decide (x < sl.2)) = 1) ∧
    (∀ k, k ≤ 10 → is_completed (execAllWorker k pfInit.1) 0 = false) ∧
    jobsAt pfDone.tasks 0 = 1 ∧
    is_completed (finish pfDone 0) 0 = true := by
  refine ⟨by decide, by decide, by decide, by decide, by decide, by decide, by decide,
    by decide, by decide, by decide, ?_, by decide, by decide, by decide, by decide⟩
  intro x
  rw [show pforSlices 0 100 10 =
      [(0, 10), (10, 20), (20, 30), (30, 40), (40, 50),
       (50, 60), (60, 70), (70, 80), (80, 90), (90, 100)] from by decide]
  simp only [coveredSl, List.any_cons, List.any_nil, Bool.or_eq_true,
    Bool.and_eq_true, decide_eq_true_eq, Bool.false_eq_true, or_false]
  omega

/-! ## Claim C5 -/

/-- Claim C5: a zero-range `create_parallel_for` (begin = end) creates no
child task (only the closure-less master): the arena grows by exactly one, no
queue is touched, and the master's pending counter is 1.  Along every protocol
run that never creates a child of the master and never executes it, the
counter stays 1 — the master never completes — while one explicit finish step
drops it to 0. -/
theorem c5_zero_range (s : SchedState) (name : String) (b step : Nat)
    (hpar : ∀ (g : Nat) (tg : Task), s.tasks[g]? = some tg →
      ∀ p, tg.parent = some p → p < s.tasks.length) :
    (create_parallel_for s name b b step).1.tasks.length = s.tasks.length + 1 ∧
    (create_parallel_for s name b b step).2 = s.tasks.length ∧
    (create_parallel_for s name b b step).1.mainTasks = s.mainTasks ∧
    (create_parallel_for s name b b step).1.otherTasks = s.otherTasks ∧
    jobsAt (create_parallel_for s name b b step).1.tasks s.tasks.length = 1 ∧
    hasClosureAt (create_parallel_for s name b b step).1.tasks s.tasks.length = false ∧
    (∀ (evs : List Ev) (s2 : SchedState),
      Trace (create_parallel_for s name b b step).1 evs s2 →
      (∀ e ∈ evs, touchesHandle s.tasks.length e = false) →
      jobsAt s2.tasks s.tasks.length = 1 ∧
      is_completed s2 s.tasks.length = false) ∧
    jobsAt (finish (create_parallel_for s name b b step).1 s.tasks.length).tasks
      s.tasks.length = 0 := by
  have hr0 : create_parallel_for s name b b step =
      ((create_internal s name false none).1, s.tasks.length) := by
    simp only [create_parallel_for, Nat.sub_self, pforBody]
    rfl
  set t0 : Task := ⟨false, none, 1, none, name, false⟩ with ht0
  have hset : (create_internal s name false none).1.tasks = s.tasks ++ [t0] := rfl
  have hentry : (s.tasks ++ [t0])[s.tasks.length]? = some t0 := getElem?_concat_self s.tasks t0
  have hnp : ∀ (g : Nat) (tg : Task), (s.tasks ++ [t0])[g]? = some tg →
      tg.parent ≠ some s.tasks.length := by
    intro g tg hg
    by_cases hgl : g < s.tasks.length
    · rw [List.getElem?_append_left hgl] at hg
      intro hc
      have := hpar g tg hg s.tasks.length hc
      omega
    · rw [getElem?_append_single s.tasks t0 g (by omega)] at hg
      by_cases hgeq : g = s.tasks.length
      · rw [if_pos hgeq] at hg
        have htg : tg = t0 := (Option.some.inj hg).symm
        subst htg
        rw [ht0]
        exact fun e => Option.noConfusion e
      · rw [if_neg hgeq] at hg
        exact Option.noConfusion hg
  refine ⟨?_, ?_, ?_, ?_, ?_, ?_, ?_, ?_⟩
  · rw [hr0]
    show (s.tasks ++ [t0]).length = s.tasks.length + 1
    simp
  · rw [hr0]
  · rw [hr0]
    rfl
  · rw [hr0]
    rfl
  · rw [hr0]
    exact jobsAt_eq hentry
  · rw [hr0]
    exact hasClosureAt_eq hentry
  · intro evs s2 htr hunt
    rw [hr0] at htr
    have hpres := trace_preserves s.tasks.length evs
      (create_internal s name false none).1 s2 htr
      (by show s.tasks.length < (s.tasks ++ [t0]).length; simp) hunt hnp
    have hz : jobsAt s2.tasks s.tasks.length = 1 := by
      have he2 : s2.tasks[s.tasks.length]? = some t0 := by
        rw [hpres]
        exact hentry
      rw [jobsAt_eq he2]
    refine ⟨hz, ?_⟩
    simp [is_completed, hz]
  · rw [hr0]
    show jobsAt (finishT (s.tasks.length + 1) (s.tasks ++ [t0]) s.tasks.length)
      s.tasks.length = 0
    rw [finishT_succ_none s.tasks.length (s.tasks ++ [t0]) s.tasks.length t0 hentry
      (by show dec32 1 = 0; decide) rfl]
    rw [jobsAt_eq (List.getElem?_set_self (by simp))]

/-- Witness for claim C5 on a fresh scheduler with `begin = end = 5`, step 3. -/
theorem c5_zero_range_witness :
    (create_parallel_for initState "z" 5 5 3).1.tasks.length = initState.tasks.length + 1 ∧
    (create_parallel_for initState "z" 5 5 3).2 = initState.tasks.length ∧
    (create_parallel_for initState "z" 5 5 3).1.mainTasks = initState.mainTasks ∧
    (create_parallel_for initState "z" 5 5 3).1.otherTasks = initState.otherTasks ∧
    jobsAt (create_parallel_for initState "z" 5 5 3).1.tasks initState.tasks.length = 1 ∧
    hasClosureAt (create_parallel_for initState "z" 5 5 3).1.tasks
      initState.tasks.length = false ∧
    (∀ (evs : List Ev) (s2 : SchedState),
      Trace (create_parallel_for initState "z" 5 5 3).1 evs s2 →
      (∀ e ∈ evs, touchesHandle initState.tasks.length e = false) →
      jobsAt s2.tasks initState.tasks.length = 1 ∧
      is_completed s2 initState.tasks.length = false) ∧
    jobsAt (finish (create_parallel_for initState "z" 5 5 3).1
      initState.tasks.length).tasks initState.tasks.length = 0 :=
  c5_zero_range initState "z" 5 3 (fun g tg hg => by simp [initState] at hg)

/-! ## Claim C6 -/

/-- Claim C6: `is_completed(h)` returns true iff `pending(h) = 0`, and the
busy-wait loop of `wait(h)` returns (in some number of iterations) iff
`is_completed(h)` is true — the two observations agree. -/
theorem c6_wait_iff_completed (s : SchedState) (h : Nat)
    (hh : h < s.tasks.length) :
    (is_completed s h = true ↔ jobsAt s.tasks h = 0) ∧
    ((∃ n, wait_go s h n = true) ↔ is_completed s h = true) ∧
    (∀ n, wait_go s h n = true → is_completed s h = true) := by
  have hmain : ∀ n, wait_go s h n = true → is_completed s h = true := by
    intro n
    induction n with
    | zero =>
      intro hw
      exact absurd hw (by simp [wait_go])
    | succ k ih =>
      intro hw
      by_cases hc : is_completed s h = true
      · exact hc
      · simp only [wait_go, hc, if_false, Bool.false_eq_true, ite_false] at hw
        exact ih hw
  refine ⟨?_, ⟨?_, ?_⟩, hmain⟩
  · simp [is_completed]
  · rintro ⟨n, hn⟩
    exact hmain n hn
  · intro hc
    exact ⟨1, by simp [wait_go, hc]⟩

/-- Witness for claim C6 at the completed single-task state. -/
theorem c6_wait_iff_completed_witness :
    0 < exDone.tasks.length ∧
    ((is_completed exDone 0 = true ↔ jobsAt exDone.tasks 0 = 0) ∧
     ((∃ n, wait_go exDone 0 n = true) ↔ is_completed exDone 0 = true) ∧
     (∀ n, wait_go exDone 0 n = true → is_completed exDone 0 = true)) :=
  ⟨by decide, c6_wait_iff_completed exDone 0 (by decide)⟩

/-! ## Claim C7 -/

/-- Claim C7: a task `T` with no children becomes complete immediately after
it is executed (its closure, or the no-op for an absent closure, runs), and
along every continuation that never gives `T` a child and never re-executes
it, `is_completed T` stays true. -/
theorem c7_leaf_completion {s s1 s2 : SchedState} (T : Nat) (q : Bool)
    (hr : Reachable s) (hlen : s.tasks.length < u32Mod)
    (hstep : LStep s (.execT T q) s1)
    (hnc : ∀ (g : Nat) (tg : Task), s.tasks[g]? = some tg → tg.parent ≠ some T)
    (evs : List Ev) (htr : Trace s1 evs s2)
    (hunt : ∀ e ∈ evs, touchesHandle T e = false) :
    is_completed s1 T = true ∧ is_completed s2 T = true := by
  have hInv := reachable_inv hr hlen
  have hkey : s1.tasks = finishT (T + 1) (setExecuted s.tasks T) T ∧
      T < s.tasks.length ∧ executedAt s.tasks T = false := by
    cases hstep with
    | execWorkerS h rest hq hh hex => exact ⟨rfl, hh, hex⟩
    | execMainS h rest hq hh hex => exact ⟨rfl, hh, hex⟩
  obtain ⟨hs1, hT, hexF⟩ := hkey
  obtain ⟨t, ht⟩ : ∃ t, s.tasks[T]? = some t :=
    ⟨s.tasks.get ⟨T, hT⟩, by rw [List.getElem?_eq_getElem hT]; rfl⟩
  have hexf : t.executed = false := by rwa [executedAt_eq ht] at hexF
  have hz1 : jobsAt s1.tasks T = 0 := by
    rw [hs1]
    exact exec_childless_zero s.tasks hInv T t ht hexf hnc
  have hc1 : is_completed s1 T = true := by simp [is_completed, hz1]
  have hnp1 : ∀ (g : Nat) (tg : Task), s1.tasks[g]? = some tg → tg.parent ≠ some T := by
    rw [hs1]
    exact finishT_no_parent T (T+1) _ T (setExecuted_no_parent s.tasks T T hnc)
  have hm1 : T < s1.tasks.length := by
    rw [hs1, finishT_length, setExecuted_length]
    exact hT
  have hpres := trace_preserves T evs s1 s2 htr hm1 hunt hnp1
  have hz2 : jobsAt s2.tasks T = 0 := by
    have hjj : jobsAt s2.tasks T = jobsAt s1.tasks T :=
      congrArg (fun o => (o.map Task.jobs).getD 0) hpres
    rw [hjj]
    exact hz1
  exact ⟨hc1, by simp [is_completed, hz2]⟩

/-- Witness for claim C7: executing the single queued childless task. -/
theorem c7_leaf_completion_witness :
    Reachable exQueued ∧ exQueued.tasks.length < u32Mod ∧
    LStep exQueued (.execT 0 false) exDone ∧
    (is_completed exDone 0 = true ∧ is_completed exDone 0 = true) := by
  have hnc : ∀ (g : Nat) (tg : Task), exQueued.tasks[g]? = some tg →
      tg.parent ≠ some 0 := by
    intro g tg hg
    have hl : g < exQueued.tasks.length := getElem?_eq_some_lt hg
    have hlen1 : exQueued.tasks.length = 1 := by decide
    have hg0 : g = 0 := by omega
    subst hg0
    have htg : tg = ⟨true, none, 1, none, "t", false⟩ :=
      Option.some.inj
        (hg.symm.trans (show exQueued.tasks[0]? = some ⟨true, none, 1, none, "t", false⟩ by decide))
    subst htg
    exact fun e => Option.noConfusion e
  exact ⟨reachable_exQueued, by decide, lstep_exQueued_exDone,
    c7_leaf_completion 0 false reachable_exQueued (by decide) lstep_exQueued_exDone
      hnc [] (.nil exDone) (fun e he => absurd he (List.not_mem_nil e))⟩

/-! ## Claim C8 -/

/-- Claim C8: when `step > 0` and `end - begin` is not a multiple of `step`,
the last slice `[it, it + step)` produced by the `create_parallel_for` loop
overshoots `end` (`it < end < it + step`), so the union of the slices covers
all of `[begin, end)` and additionally the point `end` itself — a strict
superset of `[begin, end)`. -/
theorem c8_last_slice_overshoots (b e step : Nat) (hs : 0 < step) (hlt : b < e)
    (hmod : (e - b) % step ≠ 0) :
    ∃ lo, (pforSlices b e step).getLast? = some (lo, lo + step) ∧
      lo < e ∧ e < lo + step ∧
      (∀ x, b ≤ x → x < e → coveredSl (pforSlices b e step) x = true) ∧
      coveredSl (pforSlices b e step) e = true ∧
      ¬ (b ≤ e ∧ e < e) := by
  obtain ⟨lo, hl, h1, h2, hm, hcov⟩ := pforSlices_last_spec step hs (e - b) b e rfl hlt
  have hover : e < lo + step := by
    rcases Nat.lt_or_ge e (lo + step) with hlt2 | hge
    · exact hlt2
    · exfalso
      have he : e = lo + step := by omega
      rw [hm] at hmod
      have hstep2 : e - lo = step := by omega
      rw [hstep2, Nat.mod_self] at hmod
      exact hmod rfl
  refine ⟨lo, hl, h1, hover, ?_, ?_, by omega⟩
  · intro x hx1 hx2
    exact hcov x hx1 (by omega)
  · exact hcov e (by omega) (by omega)

/-- Witness for claim C8: range `[0, 95)` with step 10 — the last slice is
`[90, 100)`, overshooting 95. -/
theorem c8_last_slice_overshoots_witness :
    (0 < 10 ∧ 0 < 95 ∧ (95 - 0) % 10 ≠ 0) ∧
    (∃ lo, (pforSlices 0 95 10).getLast? = some (lo, lo + 10) ∧
      lo < 95 ∧ 95 < lo + 10 ∧
      (∀ x, 0 ≤ x → x < 95 → coveredSl (pforSlices 0 95 10) x = true) ∧
      coveredSl (pforSlices 0 95 10) 95 = true ∧
      ¬ (0 ≤ 95 ∧ 95 < 95)) :=
  ⟨⟨by decide, by decide, by decide⟩,
    c8_last_slice_overshoots 0 95 10 (by decide) (by decide) (by decide)⟩

/-! ## Claim C9 -/

/-- Claim C9: the loop `for (auto it = begin; it < end; it += step)` of
`create_parallel_for` fails to terminate exactly on nonempty ranges with
`step = 0`: with `step = 0` and `begin < end` the iterator never advances and
the loop guard holds after every iteration (so a child is created on each of
infinitely many iterations), while with `step > 0`, or with `begin >= end`,
the guard eventually fails. -/
theorem c9_zero_step_never_terminates (b e step : Nat) :
    (step = 0 → b < e → ∀ n, pforIter b step n = b ∧ pforIter b step n < e) ∧
    (0 < step → ∃ n, ¬ pforIter b step n < e) ∧
    (e ≤ b → ¬ pforIter b step 0 < e) := by
  refine ⟨?_, ?_, ?_⟩
  · intro hz hlt n
    subst hz
    have hit := pforIter_eq b 0 n
    rw [Nat.mul_zero] at hit
    constructor <;> omega
  · intro hs
    refine ⟨e, ?_⟩
    have hit := pforIter_eq b step e
    have hge : e ≤ e * step := Nat.le_mul_of_pos_right e hs
    omega
  · intro hle
    have hit := pforIter_eq b step 0
    rw [Nat.zero_mul] at hit
    omega

/-- Witness for claim C9: with `begin = 0`, `end = 5`, `step = 0` the guard
still holds after three iterations and the iterator has not moved; with
`step = 7` the loop exits. -/
theorem c9_zero_step_never_terminates_witness :
    (pforIter 0 0 3 = 0 ∧ pforIter 0 0 3 < 5) ∧
    (∃ n, ¬ pforIter 0 7 n < 5) ∧
    ¬ pforIter 5 3 0 < 5 :=
  ⟨(c9_zero_step_never_terminates 0 5 0).1 rfl (by decide) 3,
   (c9_zero_step_never_terminates 0 5 7).2.1 (by decide),
   (c9_zero_step_never_terminates 5 5 3).2.2 (by decide)⟩

/-! ## Claim C10 -/

/-- Claim C10: the pending counter is a 32-bit unsigned atomic
(`std::atomic<uint32_t> jobs`, task.h line 147), so an unbalanced extra finish
on a task whose counter is already 0 wraps the counter modulo `2^32` to
`4294967295` instead of going negative; the counter is always a value below
`2^32` (never negative only by modular arithmetic), and the task then appears
permanently incomplete rather than failing. -/
theorem c10_decrement_wraps (s : SchedState) (h : Nat) (t : Task)
    (ht : s.tasks[h]? = some t) (hz : t.jobs = 0) :
    dec32 0 = 4294967295 ∧
    (∀ j, dec32 j < u32Mod) ∧
    (∀ j, inc32 j < u32Mod) ∧
    finish s h = { s with tasks := s.tasks.set h { t with jobs := 4294967295 } } ∧
    jobsAt (finish s h).tasks h = 4294967295 ∧
    is_completed (finish s h) h = false := by
  have hlt : h < s.tasks.length := getElem?_eq_some_lt ht
  have hd : dec32 t.jobs = 4294967295 := by rw [hz]; decide
  have hne : dec32 t.jobs ≠ 0 := by rw [hd]; decide
  have hfin : finish s h =
      { s with tasks := s.tasks.set h { t with jobs := 4294967295 } } := by
    rw [finish, finishT_succ_stop h s.tasks h t ht hne, hd]
  refine ⟨by decide, ?_, ?_, hfin, ?_, ?_⟩
  · intro j
    exact Nat.mod_lt _ (by decide)
  · intro j
    exact Nat.mod_lt _ (by decide)
  · rw [hfin]
    exact jobsAt_eq (List.getElem?_set_self hlt)
  · rw [is_completed, hfin]
    rw [jobsAt_eq (List.getElem?_set_self hlt)]
    show ((4294967295 : Nat) == 0) = false
    decide

/-- Witness for claim C10: an extra finish on the already-completed task of
`exDone` leaves it looking permanently incomplete. -/
theorem c10_decrement_wraps_witness :
    exDone.tasks[0]? = some ⟨true, none, 0, none, "t", true⟩ ∧
    (⟨true, none, 0, none, "t", true⟩ : Task).jobs = 0 ∧
    (dec32 0 = 4294967295 ∧
     (∀ j, dec32 j < u32Mod) ∧
     (∀ j, inc32 j < u32Mod) ∧
     finish exDone 0 =
       { exDone with tasks :=
          exDone.tasks.set 0 (⟨true, none, 4294967295, none, "t", true⟩ : Task) } ∧
     jobsAt (finish exDone 0).tasks 0 = 4294967295 ∧
     is_completed (finish exDone 0) 0 = false) :=
  ⟨by decide, by decide,
    c10_decrement_wraps exDone 0 ⟨true, none, 0, none, "t", true⟩ (by decide) (by decide)⟩

end TaskSys